import Mathlib

/-!
Verification of the lisp1_5 interpreter (robpike/lisp): a shallow embedding
of its token, expression, lexer, parser, printer and evaluator code in Lean 4,
with theorems settling the specification claims.

Conventions of the embedding:
- A Go `*Expr` that is `nil` is `Expr.empty`; an `&Expr{atom: t}` is
  `Expr.atom t`; an `&Expr{car: a, cdr: d}` is `Expr.cons a d`.
- Go tokens are interned (pointer identity keyed by text), so token identity
  is structural equality here; the predefined constants `T`, `F`, `nil` carry
  the `const` kind, exactly as the interning table fixes them at startup.
- `big.Int` is modelled by `Int`.
- Panics of kind `Error` are `Except.error`; the evaluator carries a fuel
  counter (`Err.fuel` marks exhaustion, which never occurs in the theorems).
- Mutation of `*Context` becomes explicit state passing.
-/

set_option maxHeartbeats 1000000
set_option maxRecDepth 4000

namespace Lisp15

/-- TokType mirrors the token-kind enumeration of the lexer. -/
inductive TokType
  | terror
  | teof
  | tatom
  | tconst
  | tnumber
  | tlpar
  | trpar
  | tdot
  | tchar
  | tquote
  | tnewline
deriving DecidableEq, Repr

/-- Token mirrors the Go token struct: a kind, the source text (empty for
numbers) and the numeric value (zero for non-numbers, standing for the shared
`&zero` big.Int the source stores there). -/
structure Token where
  typ : TokType
  text : String
  num : Int
deriving DecidableEq, Repr

/-- Expr mirrors the Go expression: either the nil pointer (`empty`), an
atom-shaped node, or a pair node with car and cdr. -/
inductive Expr
  | empty
  | atom (t : Token)
  | cons (car cdr : Expr)
deriving DecidableEq, Repr

/-- natDigits renders a natural number in decimal, modelling what
`fmt.Sprint` does with a non-negative `big.Int`. -/
def natDigits (n : Nat) : List Char :=
  if h : n < 10 then [Char.ofNat (48 + n)]
  else natDigits (n / 10) ++ [Char.ofNat (48 + n % 10)]
termination_by n
decreasing_by
  exact Nat.div_lt_self (Nat.lt_of_lt_of_le (by decide) (Nat.le_of_not_lt h)) (by decide)

/-- intDigits renders an integer in decimal with a leading minus sign for
negatives, modelling `fmt.Sprint` on a `big.Int`. -/
def intDigits (i : Int) : List Char :=
  if i < 0 then Char.ofNat 45 :: natDigits i.natAbs else natDigits i.toNat

/-- printTokenCh is the token String method: numbers print their decimal
value, everything else prints its text. -/
def printTokenCh (t : Token) : List Char :=
  if t.typ = TokType.tnumber then intDigits t.num else t.text.data

/-- tokStr is the token String method as a Lean string. -/
def tokStr (t : Token) : String :=
  String.mk (printTokenCh t)

/-- mkStr models interning by `mkToken` for word tokens produced by the
lexer: the three predefined constants keep their `const` kind, every other
text is an ordinary atom. -/
def mkStr (text : String) : Token :=
  if text = "T" ∨ text = "F" ∨ text = "nil" then ⟨TokType.tconst, text, 0⟩
  else ⟨TokType.tatom, text, 0⟩

/-- numTok builds a number token; as in the source, number tokens carry no
text. -/
def numTok (n : Int) : Token :=
  ⟨TokType.tnumber, "", n⟩

def tokT : Token := ⟨TokType.tconst, "T", 0⟩
def tokF : Token := ⟨TokType.tconst, "F", 0⟩
def tokNil : Token := ⟨TokType.tconst, "nil", 0⟩
def tokLambda : Token := ⟨TokType.tatom, "λ", 0⟩
def tokASCIILambda : Token := ⟨TokType.tatom, "lambda", 0⟩
def tokQuoteA : Token := ⟨TokType.tatom, "quote", 0⟩
def tokCond : Token := ⟨TokType.tatom, "cond", 0⟩
def tokDefn : Token := ⟨TokType.tatom, "defn", 0⟩

/-- getAtomE is the `getAtom` method: the token of an atom-shaped expression,
`none` for the empty expression and for pairs. -/
def getAtomE : Expr → Option Token
  | Expr.atom t => some t
  | _ => none

/-- Car implements the Lisp function CAR: nil on nil or an atom. -/
def Car : Expr → Expr
  | Expr.cons a _ => a
  | _ => Expr.empty

/-- Cdr implements the Lisp function CDR: nil on nil or an atom. -/
def Cdr : Expr → Expr
  | Expr.cons _ d => d
  | _ => Expr.empty

/-- isTrue reports whether the expression is the T atom. -/
def isTrue (e : Expr) : Bool :=
  e = Expr.atom tokT

/-- lengthE counts the items in the top level of the list, as the `length`
method does: nil has length 0, an atom counts 1 plus the length of its
(empty) Cdr. -/
def lengthE : Expr → Nat
  | Expr.empty => 0
  | Expr.atom _ => 1
  | Expr.cons _ d => 1 + lengthE d

/-- isNumberE is the `isNumber` method. -/
def isNumberE (e : Expr) : Bool :=
  match e with
  | Expr.atom t => t.typ = TokType.tnumber
  | _ => false

/-- atomExprE wraps a token into an atom-shaped expression. -/
def atomExprE (t : Token) : Expr :=
  Expr.atom t

def constT : Expr := atomExprE tokT
def constF : Expr := atomExprE tokF
def constNIL : Expr := atomExprE tokNil

/-- truthExpr converts a boolean to the constant atom T or F. -/
def truthExpr (b : Bool) : Expr :=
  if b then constT else constF

mutual
/-- buildCh is the `buildString` method of Expr, producing the printed
characters; the Bool is the simplifyQuote flag. In the quote-sugar branch
the source prints `Car(Cdr e)`, written here as a match on the cdr (Car of
anything that is not a pair is nil, which prints as nil). -/
def buildCh : Expr → Bool → List Char
  | Expr.empty, _ => "nil".data
  | Expr.atom t, _ => printTokenCh t
  | Expr.cons a d, sq =>
    if sq ∧ a = Expr.atom tokQuoteA then
      Char.ofNat 39 ::
        (match d with
         | Expr.cons x _ => buildCh x sq
         | _ => "nil".data)
    else
      Char.ofNat 40 :: ((buildCh a sq ++ tailCh d sq) ++ [Char.ofNat 41])

/-- tailCh is the flattening loop of `buildString` over the cdr spine,
after the current car has been printed: stop at nil, elide a nil atom tail,
print a dotted atom tail (an atom prints via its token), and continue with
a space through pair tails. -/
def tailCh : Expr → Bool → List Char
  | Expr.empty, _ => []
  | Expr.atom t, _ => if t.text = "nil" then [] else " . ".data ++ printTokenCh t
  | Expr.cons a d, sq => Char.ofNat 32 :: (buildCh a sq ++ tailCh d sq)
end

/-- printListCh is the String method of Expr (list mode, the default
configuration), as a character list. -/
def printListCh (e : Expr) : List Char :=
  buildCh e true

/-- stringListE is the String method of Expr in the default list mode. -/
def stringListE (e : Expr) : String :=
  String.mk (printListCh e)

/-- isSpaceM is the lexer's `isSpace`. -/
def isSpaceM (c : Char) : Bool :=
  c = ' ' ∨ c = '\t' ∨ c = '\n' ∨ c = '\r'

/-- isDigitM is the lexer's `isNumber`. -/
def isDigitM (c : Char) : Bool :=
  '0' ≤ c ∧ c ≤ '9'

/-- isLetterM models `unicode.IsLetter` on the letters this repository's
sources actually use: the ASCII alphabet plus the lambda rune. -/
def isLetterM (c : Char) : Bool :=
  c.isAlpha ∨ c = 'λ'

/-- isAlphanumM is the lexer's `isAlphanum`. -/
def isAlphanumM (c : Char) : Bool :=
  c = '_' ∨ isDigitM c ∨ isLetterM c

/-- digitVal is the numeric value of a decimal digit character. -/
def digitVal (c : Char) : Nat :=
  c.toNat - 48

/-- digitsVal folds a digit string into its value in the given base,
failing when a character is not a digit below the base. -/
def digitsVal (base : Nat) (ds : List Char) : Option Nat :=
  ds.foldl
    (fun acc c =>
      match acc with
      | none => none
      | some v => if isDigitM c ∧ digitVal c < base then some (v * base + digitVal c) else none)
    (some 0)

/-- setString0 models `big.Int.SetString(text, 0)` on the texts the lexer's
number scanner can produce (an optional sign followed by decimal digits): an
empty digit string fails, a leading zero selects the legacy octal base, and
anything else is decimal. -/
def setString0 (s : List Char) : Option Int :=
  let signed : Bool × List Char :=
    match s with
    | c :: rest => if c = '-' then (true, rest) else if c = '+' then (false, rest) else (false, s)
    | [] => (false, s)
  match signed.2 with
  | [] => none
  | c :: rest =>
    let mag : Option Nat :=
      if c = '0' ∧ rest ≠ [] then digitsVal 8 rest
      else digitsVal 10 (c :: rest)
    mag.map (fun n => if signed.1 then -(n : Int) else (n : Int))

def tokLparT : Token := ⟨TokType.tlpar, "(", 0⟩
def tokRparT : Token := ⟨TokType.trpar, ")", 0⟩
def tokDotT : Token := ⟨TokType.tdot, ".", 0⟩
def tokQuoteT : Token := ⟨TokType.tquote, String.mk [Char.ofNat 39], 0⟩

/-- charTok is `mkToken(tokenChar, string(r))`. -/
def charTok (c : Char) : Token :=
  ⟨TokType.tchar, String.mk [c], 0⟩

/-- sepOk is `endToken`: the rune after a token must separate it from the
next, i.e. be whitespace, a parenthesis, a dot, or the end of input. -/
def sepOk : List Char → Bool
  | [] => true
  | c :: _ => isSpaceM c ∨ c = '(' ∨ c = ')' ∨ c = '.'

/-- notNL holds on runes other than newline. -/
def notNL (c : Char) : Bool :=
  ¬ (c = '\n')

/-- skipLine is `skipToNewline`: consume runes up to and including the next
newline, or everything when no newline remains. -/
def skipLine (cs : List Char) : List Char :=
  (cs.dropWhile notNL).drop 1

/-- dropWhile_length_le bounds dropWhile for the lexer's termination. -/
theorem dropWhile_length_le {α : Type} (p : α → Bool) (l : List α) :
    (l.dropWhile p).length ≤ l.length := by
  induction l with
  | nil => simp [List.dropWhile]
  | cons a t ih =>
    simp only [List.dropWhile]
    cases p a
    · simp
    · simp
      omega

/-- skipLine_length_le bounds skipLine for the lexer's termination. -/
theorem skipLine_length_le (cs : List Char) : (skipLine cs).length ≤ cs.length := by
  have h := dropWhile_length_le notNL cs
  simp [skipLine]
  omega

/-- lexGo runs the lexer `next` over a whole character stream, producing
the token sequence; reaching the end of the list is reaching EOF (the EOF
token itself is represented by exhausting the list). Lexer panics of kind
`Error` become `Except.error` with the same message. The Nat is a fuel
counter that always exceeds the input length, so its exhaustion case is
unreachable. -/
def lexGo : Nat → List Char → Except String (List Token)
  | 0, _ => Except.error ("lexer fuel exhausted")
  | fuel + 1, cs =>
    match cs with
    | [] => Except.ok []
    | c :: rest =>
    if isSpaceM c then lexGo fuel rest
    else if c = ';' then lexGo fuel (skipLine rest)
    else if c = '(' then (lexGo fuel rest).map (fun ts => tokLparT :: ts)
    else if c = ')' then (lexGo fuel rest).map (fun ts => tokRparT :: ts)
    else if c = '.' then (lexGo fuel rest).map (fun ts => tokDotT :: ts)
    else if c = '-' ∨ c = '+' then
      match rest with
      | d :: _ =>
        if isDigitM d then
          let ds := c :: rest.takeWhile isDigitM
          let rem := rest.dropWhile isDigitM
          if sepOk rem then
            match setString0 ds with
            | some n => (lexGo fuel rem).map (fun ts => numTok n :: ts)
            | none => Except.error ("bad number syntax: " ++ String.mk ds)
          else Except.error ("invalid token after " ++ String.mk ds)
        else (lexGo fuel rest).map (fun ts => charTok c :: ts)
      | [] => Except.ok [charTok c]
    else if isDigitM c then
      let ds := c :: rest.takeWhile isDigitM
      let rem := rest.dropWhile isDigitM
      if sepOk rem then
        match setString0 ds with
        | some n => (lexGo fuel rem).map (fun ts => numTok n :: ts)
        | none => Except.error ("bad number syntax: " ++ String.mk ds)
      else Except.error ("invalid token after " ++ String.mk ds)
    else if c = Char.ofNat 39 then (lexGo fuel rest).map (fun ts => tokQuoteT :: ts)
    else if c = '_' ∨ isLetterM c then
      let ds := c :: rest.takeWhile isAlphanumM
      let rem := rest.dropWhile isAlphanumM
      if sepOk rem then (lexGo fuel rem).map (fun ts => mkStr (String.mk ds) :: ts)
      else Except.error ("invalid token after " ++ String.mk ds)
    else (lexGo fuel rest).map (fun ts => charTok c :: ts)
/-- lexAll runs the lexer over the whole stream, with fuel ample for the
input length. -/
def lexAll (cs : List Char) : Except String (List Token) :=
  lexGo (cs.length + 1) cs

/-- PErr is the non-local exit from lexing and parsing: a recoverable panic
of kind `Error` with its message, the distinct EOF panic, a fatal exit via
`log.Fatal` (which terminates the process and cannot be recovered), or fuel
exhaustion of the model. -/
inductive PErr
  | perr (msg : String)
  | peof
  | pfatal (msg : String)
  | pfuel
deriving DecidableEq, Repr

mutual
/-- pList is the parser's `List` method over the remaining tokens,
returning the parsed expression and the unconsumed tokens. -/
def pList : Nat → List Token → Except PErr (Expr × List Token)
  | 0, _ => Except.error PErr.pfuel
  | _ + 1, [] => Except.error PErr.peof
  | fuel + 1, t :: rest =>
    if t.typ = TokType.tquote then pQuote fuel rest
    else if t.typ = TokType.tatom ∨ t.typ = TokType.tconst ∨ t.typ = TokType.tnumber then
      Except.ok (Expr.atom t, rest)
    else if t.typ = TokType.tlpar then
      match pLparList fuel rest with
      | Except.error e => Except.error e
      | Except.ok (e, rest2) =>
        match rest2 with
        | t2 :: rest3 =>
          if t2.typ = TokType.trpar then Except.ok (e, rest3)
          else Except.error (PErr.perr ("bad token in list: " ++ tokStr t2))
        | [] => Except.error (PErr.perr ("bad token in list: EOF"))
    else Except.error (PErr.perr ("bad token in list: " ++ tokStr t))

/-- pQuote is the parser's `quote` method: the leading quote token has been
consumed; wrap the next list expression as `(quote X)`. -/
def pQuote : Nat → List Token → Except PErr (Expr × List Token)
  | 0, _ => Except.error PErr.pfuel
  | fuel + 1, toks =>
    match pList fuel toks with
    | Except.ok (x, rest) =>
      Except.ok (Expr.cons (Expr.atom tokQuoteA) (Expr.cons x Expr.empty), rest)
    | Except.error e => Except.error e

/-- pLparList is the parser's `lparList` method: the innards of a list up
to (but not consuming) the closing parenthesis. -/
def pLparList : Nat → List Token → Except PErr (Expr × List Token)
  | 0, _ => Except.error PErr.pfuel
  | _ + 1, [] => Except.error (PErr.perr ("bad token parsing list: EOF"))
  | fuel + 1, t :: rest =>
    if t.typ = TokType.tquote then
      match pQuote fuel rest with
      | Except.ok (q, r) =>
        match pLparList fuel r with
        | Except.ok (l, r2) => Except.ok (Expr.cons q l, r2)
        | Except.error e => Except.error e
      | Except.error e => Except.error e
    else if t.typ = TokType.tatom ∨ t.typ = TokType.tconst ∨ t.typ = TokType.tnumber then
      match pLparList fuel rest with
      | Except.ok (l, r2) => Except.ok (Expr.cons (Expr.atom t) l, r2)
      | Except.error e => Except.error e
    else if t.typ = TokType.tdot then pList fuel rest
    else if t.typ = TokType.tlpar then
      match pList fuel (t :: rest) with
      | Except.ok (e, r) =>
        match pLparList fuel r with
        | Except.ok (l, r2) => Except.ok (Expr.cons e l, r2)
        | Except.error e2 => Except.error e2
      | Except.error e => Except.error e
    else if t.typ = TokType.trpar then Except.ok (Expr.empty, t :: rest)
    else Except.error (PErr.perr ("bad token parsing list: " ++ tokStr t))
end

/-- pSExpr is the parser's `SExpr` method: an atom, a quote, or a
parenthesised dotted pair whose missing dot or missing right parenthesis is
a fatal (unrecoverable) exit; end of input yields the empty expression. -/
def pSExpr : Nat → List Token → Except PErr (Expr × List Token)
  | 0, _ => Except.error PErr.pfuel
  | _ + 1, [] => Except.ok (Expr.empty, [])
  | fuel + 1, t :: rest =>
    if t.typ = TokType.tquote then pQuote fuel rest
    else if t.typ = TokType.tatom ∨ t.typ = TokType.tconst ∨ t.typ = TokType.tnumber then
      Except.ok (Expr.atom t, rest)
    else if t.typ = TokType.tlpar then
      match pSExpr fuel rest with
      | Except.ok (car, r1) =>
        match r1 with
        | d :: r2 =>
          if d.typ = TokType.tdot then
            match pSExpr fuel r2 with
            | Except.ok (cdr, r3) =>
              match r3 with
              | rp :: r4 =>
                if rp.typ = TokType.trpar then Except.ok (Expr.cons car cdr, r4)
                else Except.error (PErr.pfatal ("expected rPar, found " ++ tokStr rp))
              | [] => Except.error (PErr.pfatal ("expected rPar, found EOF"))
            | Except.error e => Except.error e
          else Except.error (PErr.pfatal ("expected dot, found " ++ tokStr d))
        | [] => Except.error (PErr.pfatal ("expected dot, found EOF"))
      | Except.error e => Except.error e
    else Except.error (PErr.perr ("bad token in SExpr: " ++ tokStr t))

/-- parseListStr lexes a whole string and parses one expression with the
list entry point, with fuel ample for the token count. -/
def parseListStr (s : String) : Except PErr Expr :=
  match lexAll s.data with
  | Except.error m => Except.error (PErr.perr m)
  | Except.ok toks =>
    match pList (2 * toks.length + 4) toks with
    | Except.ok (e, _) => Except.ok e
    | Except.error e => Except.error e

/-- parseSExprStr lexes a whole string and parses one expression with the
S-expression entry point. -/
def parseSExprStr (s : String) : Except PErr Expr :=
  match lexAll s.data with
  | Except.error m => Except.error (PErr.perr m)
  | Except.ok toks =>
    match pSExpr (2 * toks.length + 4) toks with
    | Except.ok (e, _) => Except.ok e
    | Except.error e => Except.error e

/-- Err distinguishes a genuine interpreter error (a panic of kind `Error`
carrying its message) from exhaustion of the model's fuel counter. -/
inductive Err
  | fuel
  | lisp (msg : String)
deriving DecidableEq, Repr

/-- exceptDecEq makes pipeline results decidably comparable. -/
instance exceptDecEq {e a : Type} [DecidableEq e] [DecidableEq a] : DecidableEq (Except e a)
  | Except.error x, Except.error y =>
    match decEq x y with
    | Decidable.isTrue h => Decidable.isTrue (by rw [h])
    | Decidable.isFalse h => Decidable.isFalse (fun hh => h (by injection hh))
  | Except.error _, Except.ok _ => Decidable.isFalse (fun h => Except.noConfusion h)
  | Except.ok _, Except.error _ => Decidable.isFalse (fun h => Except.noConfusion h)
  | Except.ok x, Except.ok y =>
    match decEq x y with
    | Decidable.isTrue h => Decidable.isTrue (by rw [h])
    | Decidable.isFalse h => Decidable.isFalse (fun hh => h (by injection hh))

/-- Frame is the Go `frame` map from token identity to expression, as an
association list with map-update semantics. -/
abbrev Frame := List (Token × Expr)

/-- frameLookup is map indexing: the value bound to the token, if any. -/
def frameLookup (f : Frame) (t : Token) : Option Expr :=
  match f with
  | [] => none
  | (k, v) :: rest => if k = t then some v else frameLookup rest t

/-- frameHas is the `_, ok :=` form of map indexing. -/
def frameHas (f : Frame) (t : Token) : Bool :=
  (frameLookup f t).isSome

/-- frameSet is map assignment: rebinds the key if present, else adds it. -/
def frameSet (f : Frame) (t : Token) (e : Expr) : Frame :=
  match f with
  | [] => [(t, e)]
  | (k, v) :: rest => if k = t then (t, e) :: rest else (k, v) :: frameSet rest t e

/-- Scope is one stack frame: its variables plus the called function's name
and arguments kept for tracebacks. -/
structure Scope where
  vars : Frame
  fn : String
  args : Expr
deriving DecidableEq, Repr

/-- Context holds the interpreter state: the stack of call frames (index 0
is the global frame, the last element is the innermost frame), the stack
depth counter and the configured limit. -/
structure Context where
  scope : List Scope
  stackDepth : Int
  maxStackDepth : Int
deriving DecidableEq, Repr

/-- scopeSearchAux is the loop of `getScope`: walk the scope slice from
index 0 upward, overwriting the remembered index at every frame that
contains the token, so the final answer is the last (innermost) match. -/
def scopeSearchAux (t : Token) : List Scope → Nat → Option Nat → Option Nat
  | [], _, acc => acc
  | s :: rest, i, acc =>
    scopeSearchAux t rest (i + 1) (if frameHas s.vars t then some i else acc)

/-- getScopeIdx is `getScope`, returning the index of the chosen frame: the
last frame containing the token, or the innermost frame when none does. -/
def getScopeIdx (c : Context) (t : Token) : Nat :=
  match scopeSearchAux t c.scope 0 none with
  | some i => i
  | none => c.scope.length - 1

/-- ctxGet is the `get` method: a number is its own value, otherwise the
value bound in the frame `getScope` picks, with a missing map entry reading
as the nil expression. -/
def ctxGet (c : Context) (t : Token) : Expr :=
  if t.typ = TokType.tnumber then atomExprE t
  else
    match c.scope.get? (getScopeIdx c t) with
    | some s => (frameLookup s.vars t).getD Expr.empty
    | none => Expr.empty

/-- ctxSet is the `set` method: refuse constants, then rebind the token in
the frame `getScope` picks. -/
def ctxSet (c : Context) (t : Token) (e : Expr) : Except Err Context :=
  if t.typ = TokType.tconst then Except.error (Err.lisp ("cannot set constant " ++ tokStr t))
  else
    let i := getScopeIdx c t
    match c.scope.get? i with
    | some s => Except.ok { c with scope := c.scope.set i { s with vars := frameSet s.vars t e } }
    | none => Except.ok c

/-- ctxSetLocal is the `setLocal` method: refuse constants, then bind the
token in the innermost frame. -/
def ctxSetLocal (c : Context) (t : Token) (e : Expr) : Except Err Context :=
  if t.typ = TokType.tconst then Except.error (Err.lisp ("cannot set constant " ++ tokStr t))
  else
    let i := c.scope.length - 1
    match c.scope.get? i with
    | some s => Except.ok { c with scope := c.scope.set i { s with vars := frameSet s.vars t e } }
    | none => Except.ok c

/-- ctxPush is the `push` method: append a fresh execution frame. -/
def ctxPush (c : Context) (fn : String) (args : Expr) : Context :=
  { c with scope := c.scope ++ [⟨[], fn, args⟩] }

/-- ctxPop is the `pop` method: drop the innermost frame. Note it does not
touch the stack depth counter. -/
def ctxPop (c : Context) : Context :=
  { c with scope := c.scope.dropLast }

/-- PopStack resets the execution stack: zero the depth counter and drop
every frame above the global one. -/
def popStack (c : Context) : Context :=
  { c with stackDepth := 0, scope := c.scope.take 1 }

/-- topName is the fn string identifying the global scope. -/
def topName : String := ")<top>"

def tokAdd : Token := ⟨TokType.tatom, "add", 0⟩
def tokAnd : Token := ⟨TokType.tatom, "and", 0⟩
def tokApply : Token := ⟨TokType.tatom, "apply", 0⟩
def tokAtomF : Token := ⟨TokType.tatom, "atom", 0⟩
def tokCar : Token := ⟨TokType.tatom, "car", 0⟩
def tokCdr : Token := ⟨TokType.tatom, "cdr", 0⟩
def tokConsF : Token := ⟨TokType.tatom, "cons", 0⟩
def tokDiv : Token := ⟨TokType.tatom, "div", 0⟩
def tokEq : Token := ⟨TokType.tatom, "eq", 0⟩
def tokGe : Token := ⟨TokType.tatom, "ge", 0⟩
def tokGt : Token := ⟨TokType.tatom, "gt", 0⟩
def tokLe : Token := ⟨TokType.tatom, "le", 0⟩
def tokListF : Token := ⟨TokType.tatom, "list", 0⟩
def tokLt : Token := ⟨TokType.tatom, "lt", 0⟩
def tokMul : Token := ⟨TokType.tatom, "mul", 0⟩
def tokNe : Token := ⟨TokType.tatom, "ne", 0⟩
def tokNull : Token := ⟨TokType.tatom, "null", 0⟩
def tokOr : Token := ⟨TokType.tatom, "or", 0⟩
def tokRem : Token := ⟨TokType.tatom, "rem", 0⟩
def tokSub : Token := ⟨TokType.tatom, "sub", 0⟩

/-- isCadR reports whether the characters are a run of car and cdr calls:
length at least 3, first letter c, last letter r, middle letters a or d. -/
def isCadR (s : List Char) : Bool :=
  if s.length < 3 ∨ ¬ (s.head? = some 'c') ∨ ¬ (s.getLast? = some 'r') then false
  else ((s.drop 1).dropLast).all (fun c => c = 'a' ∨ c = 'd')

/-- cadrMiddle is the slice of middle letters of a composite name. -/
def cadrMiddle (s : List Char) : List Char :=
  (s.drop 1).dropLast

/-- isElemTok reports whether the token is a key of the `elementary`
function map populated by `evalInit`. -/
def isElemTok (t : Token) : Bool :=
  t = tokAdd ∨ t = tokAnd ∨ t = tokApply ∨ t = tokAtomF ∨ t = tokCar ∨ t = tokCdr ∨
  t = tokConsF ∨ t = tokDefn ∨ t = tokDiv ∨ t = tokEq ∨ t = tokGe ∨ t = tokGt ∨
  t = tokLe ∨ t = tokListF ∨ t = tokLt ∨ t = tokMul ∨ t = tokNe ∨ t = tokNull ∨
  t = tokOr ∨ t = tokRem ∨ t = tokSub

/-- isElementaryTok is `lookupElementary(name) != nil`: a key of the map, or
a composite car/cdr name. -/
def isElementaryTok (t : Token) : Bool :=
  isElemTok t ∨ isCadR t.text.data

/-- cadrSteps is the walking loop of `cadrFunc`: the characters are the
middle letters in right-to-left order, the loop stops early once the
expression is nil, and each step applies Car for a and Cdr for d. -/
def cadrSteps : List Char → Expr → Expr
  | [], e => e
  | ch :: rest, e =>
    if e = Expr.empty then e
    else cadrSteps rest (if ch = 'a' then Car e else Cdr e)

/-- cadrFunc is the composite car/cdr elementary: check the name shape,
take the first argument, then walk the middle letters from the rightmost
leftward. -/
def cadrFunc (name : Token) (expr : Expr) : Expr :=
  if isCadR name.text.data then cadrSteps (cadrMiddle name.text.data).reverse (Car expr)
  else Expr.empty

/-- eqE is the `eq` helper: both empty counts equal, atoms must agree on
kind, numbers compare by value, other atoms by interned identity. -/
def eqE (a b : Expr) : Bool :=
  match a, b with
  | Expr.empty, b2 => b2 = Expr.empty
  | _, Expr.empty => false
  | Expr.atom ta, Expr.atom tb =>
    if ¬ (ta.typ = tb.typ) then false
    else if ta.typ = TokType.tnumber then ta.num = tb.num
    else ta = tb
  | _, _ => false

/-- esize is a plain node count on expressions, used as the termination
measure of the variadic logic elementaries. -/
def esize : Expr → Nat
  | Expr.empty => 0
  | Expr.atom _ => 1
  | Expr.cons a d => 1 + esize a + esize d

/-- andFunc is the variadic `and` over the already-evaluated argument list:
F at the first non-T element, T when the list runs out. On a pair, Car and
Cdr are its fields; on an atom, Car is nil (never T) so the loop returns F
there — the written else branch is the value the loop would produce from
the atom's empty Cdr and is unreachable. -/
def andFunc : Expr → Expr
  | Expr.empty => truthExpr true
  | Expr.atom t =>
    if ¬ isTrue (Car (Expr.atom t)) then truthExpr false else truthExpr true
  | Expr.cons a d =>
    if ¬ isTrue a then truthExpr false else andFunc d

/-- orFunc is the variadic `or`: T at the first T element, F when the list
runs out; the atom case mirrors `andFunc`. -/
def orFunc : Expr → Expr
  | Expr.empty => truthExpr false
  | Expr.atom t =>
    if isTrue (Car (Expr.atom t)) then truthExpr true else truthExpr false
  | Expr.cons a d =>
    if isTrue a then truthExpr true else orFunc d

/-- getNumberE is `getNumber`: the numeric value of a number expression,
anything else raises the expect-number error. -/
def getNumberE (e : Expr) : Except Err Int :=
  match e with
  | Expr.atom t =>
    if t.typ = TokType.tnumber then Except.ok t.num
    else Except.error (Err.lisp ("expect number; have " ++ stringListE e))
  | _ => Except.error (Err.lisp ("expect number; have " ++ stringListE e))

def goAdd (a b : Int) : Except Err Int := Except.ok (a + b)
def goSub (a b : Int) : Except Err Int := Except.ok (a - b)
def goMul (a b : Int) : Except Err Int := Except.ok (a * b)

/-- goDiv models `big.Int.Div` (Euclidean division) with the zero check. -/
def goDiv (a b : Int) : Except Err Int :=
  if b = 0 then Except.error (Err.lisp ("division by zero")) else Except.ok (Int.ediv a b)

/-- goRem models `big.Int.Rem` (truncated remainder) with the zero check. -/
def goRem (a b : Int) : Except Err Int :=
  if b = 0 then Except.error (Err.lisp ("rem by zero")) else Except.ok (Int.tmod a b)

/-- mathFunc is the shared arithmetic wrapper: both arguments must be
numbers, then apply the operation and wrap the result as a number atom. -/
def mathFunc (x : Expr) (f : Int → Int → Except Err Int) : Except Err Expr := do
  let a ← getNumberE (Car x)
  let b ← getNumberE (Car (Cdr x))
  let r ← f a b
  pure (atomExprE (numTok r))

/-- boolFunc is the shared comparison wrapper producing T or F. -/
def boolFunc (x : Expr) (f : Int → Int → Bool) : Except Err Expr := do
  let a ← getNumberE (Car x)
  let b ← getNumberE (Car (Cdr x))
  pure (truthExpr (f a b))

def goGe (a b : Int) : Bool := b ≤ a
def goGt (a b : Int) : Bool := b < a
def goLe (a b : Int) : Bool := a ≤ b
def goLt (a b : Int) : Bool := a < b
def goNe (a b : Int) : Bool := ¬ (a = b)

/-- atomFunc is the `atom` elementary: T when the argument is atom-shaped. -/
def atomFunc (x : Expr) : Expr :=
  truthExpr ((getAtomE (Car x)).isSome)

/-- carFunc is the `car` elementary. -/
def carFunc (x : Expr) : Expr :=
  Car (Car x)

/-- cdrFunc is the `cdr` elementary. -/
def cdrFunc (x : Expr) : Expr :=
  Cdr (Car x)

/-- consFunc is the `cons` elementary. -/
def consFunc (x : Expr) : Expr :=
  Expr.cons (Car x) (Car (Cdr x))

/-- eqFunc is the `eq` elementary. -/
def eqFunc (x : Expr) : Expr :=
  truthExpr (eqE (Car x) (Car (Cdr x)))

/-- listFunc is the `list` elementary: the evaluated argument list itself. -/
def listFunc (x : Expr) : Expr :=
  match x with
  | Expr.empty => Expr.empty
  | e => Expr.cons (Car e) (Cdr e)

/-- nullFunc is the `null` elementary: T exactly when the argument is nil. -/
def nullFunc (x : Expr) : Expr :=
  truthExpr (Car x = Expr.empty)

/-- listToExpr rebuilds the collected defn names as a Lisp list, mirroring
the right-to-left Cons loop at the end of `defnFunc`. -/
def listToExpr : List Expr → Expr
  | [] => Expr.empty
  | e :: rest => Expr.cons e (listToExpr rest)

/-- defnLoop is the loop of `defnFunc` over the list of (name lambda)
pairs: check the pair, bind the name via the scope-walk `set`, collect the
name expressions in order. -/
def defnLoop (c : Context) : Expr → Except Err (Context × List Expr)
  | Expr.empty => Except.ok (c, [])
  | Expr.atom _ => Except.error (Err.lisp ("empty function in defn"))
  | Expr.cons fn rest =>
    if fn = Expr.empty then Except.error (Err.lisp ("empty function in defn"))
    else
      match getAtomE (Car fn) with
      | none => Except.error (Err.lisp ("malformed defn"))
      | some a =>
        match ctxSet c a (Car (Cdr fn)) with
        | Except.error e => Except.error e
        | Except.ok c2 =>
          match defnLoop c2 rest with
          | Except.ok (c3, names) => Except.ok (c3, Car fn :: names)
          | Except.error e => Except.error e

/-- defnFunc is the `defn` elementary: walk the single list argument
binding each name, and return the list of names. -/
def defnFunc (c : Context) (x : Expr) : Except Err (Expr × Context) :=
  match defnLoop c (Car x) with
  | Except.ok (c2, names) => Except.ok (listToExpr names, c2)
  | Except.error e => Except.error e

/-- okToCall is the stack check of `apply`: an undefined function raises,
and with a positive limit the depth counter is incremented and checked (the
synthetic trace frame pushed just before the panic is invisible here since
the error abandons the context). -/
def okToCall (c : Context) (name : String) (fn x : Expr) : Except Err Context :=
  if fn = Expr.empty then
    Except.error (Err.lisp ("undefined: " ++ stringListE (Expr.cons (atomExprE (mkStr name)) x)))
  else if c.maxStackDepth > 0 then
    let c1 : Context := { c with stackDepth := c.stackDepth + 1 }
    if c1.stackDepth > c1.maxStackDepth then Except.error (Err.lisp ("stack too deep"))
    else Except.ok c1
  else Except.ok c

/-- bindFormals is the formal-binding loop of `apply`: while arguments
remain, bind the next formal (which must be an atom) to the next argument
in the innermost frame. -/
def bindFormals (c : Context) (formals args : Expr) : Except Err Context :=
  match args with
  | Expr.empty => Except.ok c
  | Expr.atom t =>
    match getAtomE (Car formals) with
    | none => Except.error (Err.lisp ("no atom"))
    | some a => ctxSetLocal c a (Car (Expr.atom t))
  | Expr.cons h rest =>
    match getAtomE (Car formals) with
    | none => Except.error (Err.lisp ("no atom"))
    | some a =>
      match ctxSetLocal c a h with
      | Except.error e => Except.error e
      | Except.ok c2 => bindFormals c2 (Cdr formals) rest

mutual
/-- applyM is `Context.apply`: check the call, dispatch an atom function
to an elementary or to the value it is bound to, and run a lambda by
binding its formals in a fresh frame and evaluating its body. -/
def applyM : Nat → Context → String → Expr → Expr → Except Err (Expr × Context)
  | 0, _, _, _, _ => Except.error Err.fuel
  | fuel + 1, c, name, fn, x =>
    match okToCall c name fn x with
    | Except.error e => Except.error e
    | Except.ok c1 =>
      match getAtomE fn with
      | some a =>
        if isElemTok a ∨ isCadR a.text.data then runElem fuel c1 a x
        else if ¬ (a.typ = TokType.tatom) then
          Except.error (Err.lisp (stringListE fn ++ " is not a function"))
        else
          match evalM fuel c1 fn with
          | Except.ok (v, c2) => applyM fuel c2 name v x
          | Except.error e => Except.error e
      | none =>
        if getAtomE (Car fn) = some tokLambda ∨ getAtomE (Car fn) = some tokASCIILambda then
          let args := x
          let formals := Car (Cdr fn)
          if ¬ (lengthE args = lengthE formals) then
            Except.error (Err.lisp ("args mismatch for " ++ name ++ ": " ++
              stringListE formals ++ " " ++ stringListE args))
          else
            match bindFormals (ctxPush c1 name args) formals args with
            | Except.error e => Except.error e
            | Except.ok c3 =>
              match evalM fuel c3 (Car (Cdr (Cdr fn))) with
              | Except.ok (v, c4) => Except.ok (v, ctxPop c4)
              | Except.error e => Except.error e
        else
          Except.error (Err.lisp ("apply failed: " ++
            stringListE (Expr.cons (atomExprE (mkStr name)) x)))

/-- runElem dispatches an elementary call through the `elementary` function
map, falling through to the composite car/cdr walker. -/
def runElem : Nat → Context → Token → Expr → Except Err (Expr × Context)
  | 0, _, _, _ => Except.error Err.fuel
  | fuel + 1, c, t, x =>
    if t = tokAdd then (mathFunc x goAdd).map (fun e => (e, c))
    else if t = tokAnd then Except.ok (andFunc x, c)
    else if t = tokApply then applyFuncM fuel c t x
    else if t = tokAtomF then Except.ok (atomFunc x, c)
    else if t = tokCar then Except.ok (carFunc x, c)
    else if t = tokCdr then Except.ok (cdrFunc x, c)
    else if t = tokConsF then Except.ok (consFunc x, c)
    else if t = tokDefn then defnFunc c x
    else if t = tokDiv then (mathFunc x goDiv).map (fun e => (e, c))
    else if t = tokEq then Except.ok (eqFunc x, c)
    else if t = tokGe then (boolFunc x goGe).map (fun e => (e, c))
    else if t = tokGt then (boolFunc x goGt).map (fun e => (e, c))
    else if t = tokLe then (boolFunc x goLe).map (fun e => (e, c))
    else if t = tokListF then Except.ok (listFunc x, c)
    else if t = tokLt then (boolFunc x goLt).map (fun e => (e, c))
    else if t = tokMul then (mathFunc x goMul).map (fun e => (e, c))
    else if t = tokNe then (boolFunc x goNe).map (fun e => (e, c))
    else if t = tokNull then Except.ok (nullFunc x, c)
    else if t = tokOr then Except.ok (orFunc x, c)
    else if t = tokRem then (mathFunc x goRem).map (fun e => (e, c))
    else if t = tokSub then (mathFunc x goSub).map (fun e => (e, c))
    else Except.ok (cadrFunc t x, c)

/-- applyFuncM is the `apply` elementary: re-enter apply with the label
applyFunc, the first argument as the function and the remaining arguments
as its argument list. -/
def applyFuncM : Nat → Context → Token → Expr → Except Err (Expr × Context)
  | 0, _, _, _ => Except.error Err.fuel
  | fuel + 1, c, _, expr => applyM fuel c ("applyFunc") (Car expr) (Cdr expr)

/-- evalM is `Context.eval`: nil and atoms evaluate directly, quote and
cond are special forms, and any other pair applies its head to the
evaluated tail. -/
def evalM : Nat → Context → Expr → Except Err (Expr × Context)
  | 0, _, _ => Except.error Err.fuel
  | fuel + 1, c, e =>
    match e with
    | Expr.empty => Except.ok (Expr.empty, c)
    | Expr.atom t => Except.ok (ctxGet c t, c)
    | Expr.cons _ _ =>
      match getAtomE (Car e) with
      | some a =>
        if a = tokQuoteA then Except.ok (Car (Cdr e), c)
        else if a = tokCond then evconM fuel c (Cdr e)
        else
          match evlisM fuel c (Cdr e) with
          | Except.ok (args, c1) => applyM fuel c1 a.text (Car e) args
          | Except.error er => Except.error er
      | none => Except.error (Err.lisp ("cannot eval " ++ stringListE e))

/-- evconM evaluates a cond clause list. -/
def evconM : Nat → Context → Expr → Except Err (Expr × Context)
  | 0, _, _ => Except.error Err.fuel
  | fuel + 1, c, x =>
    if x = Expr.empty then Except.error (Err.lisp ("no true case in cond"))
    else
      match evalM fuel c (Car (Car x)) with
      | Except.ok (v, c1) =>
        if isTrue v then evalM fuel c1 (Car (Cdr (Car x)))
        else evconM fuel c1 (Cdr x)
      | Except.error er => Except.error er

/-- evlisM evaluates a list elementwise. -/
def evlisM : Nat → Context → Expr → Except Err (Expr × Context)
  | 0, _, _ => Except.error Err.fuel
  | fuel + 1, c, m =>
    if m = Expr.empty then Except.ok (Expr.empty, c)
    else
      match evalM fuel c (Car m) with
      | Except.ok (v, c1) =>
        match evlisM fuel c1 (Cdr m) with
        | Except.ok (vs, c2) => Except.ok (Expr.cons v vs, c2)
        | Except.error er => Except.error er
      | Except.error er => Except.error er
end

/-- evalTop is the exported `Eval` entry point: an atom must not name an
elementary and evaluates to its binding; a defn form is applied directly;
anything else runs as a vacuous lambda with the expression as body. -/
def evalTop : Nat → Context → Expr → Except Err (Expr × Context)
  | 0, _, _ => Except.error Err.fuel
  | fuel + 1, c, expr =>
    match getAtomE expr with
    | some a =>
      if isElementaryTok a then Except.error (Err.lisp (tokStr a ++ " is elementary"))
      else Except.ok (ctxGet c a, c)
    | none =>
      if getAtomE (Car expr) = some tokDefn then applyM fuel c ("defn") (Car expr) (Cdr expr)
      else
        let lambda := Expr.cons (atomExprE tokLambda) (Expr.cons Expr.empty (Expr.cons expr Expr.empty))
        applyM fuel c topName lambda Expr.empty

/-- newContext is `NewContext`: one global frame holding T, F and nil. -/
def newContext (depth : Int) : Context :=
  { scope := [⟨[(tokT, constT), (tokF, constF), (tokNil, constNIL)], topName, Expr.empty⟩],
    stackDepth := 0,
    maxStackDepth := depth }


/-! Lemmas characterising the scope walk of `getScope`. -/

/-- lastMatch computes, right-recursively, the greatest index of a frame
containing the token. -/
def lastMatch (t : Token) : List Scope → Option Nat
  | [] => none
  | s :: rest =>
    match lastMatch t rest with
    | some i => some (i + 1)
    | none => if frameHas s.vars t then some 0 else none

/-- scopeSearchAux_eq identifies the left-to-right overwrite loop with the
greatest-match recursion. -/
theorem scopeSearchAux_eq (t : Token) (l : List Scope) :
    ∀ (i : Nat) (acc : Option Nat),
    scopeSearchAux t l i acc =
      match lastMatch t l with
      | some k => some (i + k)
      | none => acc := by
  induction l with
  | nil => intro i acc; simp [scopeSearchAux, lastMatch]
  | cons s rest ih =>
    intro i acc
    simp only [scopeSearchAux, lastMatch]
    rw [ih]
    cases hlm : lastMatch t rest with
    | some k => simp; omega
    | none => cases hhas : frameHas s.vars t <;> simp

/-- lastMatch_none holds when no frame contains the token. -/
theorem lastMatch_none (t : Token) (l : List Scope)
    (h : ∀ s ∈ l, frameHas s.vars t = false) : lastMatch t l = none := by
  induction l with
  | nil => rfl
  | cons s rest ih =>
    have hs := h s (List.mem_cons_self s rest)
    have hr := ih (fun s2 hs2 => h s2 (List.mem_cons_of_mem s hs2))
    simp [lastMatch, hr, hs]

/-- lastMatch_some holds at an index that contains the token while every
deeper index does not. -/
theorem lastMatch_some (t : Token) (l : List Scope) :
    ∀ (i : Nat) (hi : i < l.length),
    frameHas (l.get ⟨i, hi⟩).vars t = true →
    (∀ (j : Nat) (hj : j < l.length), i < j → frameHas (l.get ⟨j, hj⟩).vars t = false) →
    lastMatch t l = some i := by
  induction l with
  | nil => intro i hi; simp at hi
  | cons s rest ih =>
    intro i hi hhas habove
    cases i with
    | zero =>
      have hrest : lastMatch t rest = none := by
        apply lastMatch_none
        intro s2 hs2
        obtain ⟨⟨k, hk⟩, hgetk⟩ := List.mem_iff_get.mp hs2
        have h5 := habove (k + 1) (by simp; omega) (by omega)
        simp [List.get_eq_getElem] at hgetk h5
        rw [hgetk] at h5
        exact h5
      simp at hhas
      simp [lastMatch, hrest, hhas]
    | succ k =>
      have hk : k < rest.length := by simp at hi; omega
      have hhask : frameHas (rest.get ⟨k, hk⟩).vars t = true := by simpa using hhas
      have haboves : ∀ (j : Nat) (hj : j < rest.length), k < j →
          frameHas (rest.get ⟨j, hj⟩).vars t = false := by
        intro j hj hkj
        have := habove (j + 1) (by simp; omega) (by omega)
        simpa using this
      have := ih k hk hhask haboves
      simp [lastMatch, this]

/-- getScopeIdx_eq_lastMatch restates `getScope` through `lastMatch`. -/
theorem getScopeIdx_eq_lastMatch (c : Context) (t : Token) :
    getScopeIdx c t =
      match lastMatch t c.scope with
      | some i => i
      | none => c.scope.length - 1 := by
  simp only [getScopeIdx, scopeSearchAux_eq]
  cases lastMatch t c.scope <;> simp


/-- frameLookup_eq_none_of_not_has converts the Boolean absence of a key to
the lookup result. -/
theorem frameLookup_eq_none_of_not_has (f : Frame) (t : Token)
    (h : frameHas f t = false) : frameLookup f t = none := by
  cases h2 : frameLookup f t with
  | none => rfl
  | some v => rw [frameHas, h2] at h; simp at h

/-- C1: the spec says the scope walk picks the deepest (outermost) frame
containing the key. On the code the overwrite loop keeps the last match, so
lookup and `set` resolve to the innermost containing frame instead; this is
the amended statement: get reads and set rebinds the innermost frame that
contains the atom, and only when the atom is bound nowhere is the innermost
(topmost) frame likewise chosen as the binding target. -/
theorem C1_scope_lookup_amended :
    (∀ (c : Context) (t : Token) (i : Nat) (hi : i < c.scope.length),
      frameHas (c.scope.get ⟨i, hi⟩).vars t = true →
      (∀ (j : Nat) (hj : j < c.scope.length), i < j →
        frameHas (c.scope.get ⟨j, hj⟩).vars t = false) →
      getScopeIdx c t = i ∧
      (¬ t.typ = TokType.tnumber →
        ctxGet c t = (frameLookup (c.scope.get ⟨i, hi⟩).vars t).getD Expr.empty) ∧
      (¬ t.typ = TokType.tconst → ∀ v : Expr,
        ctxSet c t v = Except.ok { c with scope := c.scope.set i ({ c.scope.get ⟨i, hi⟩ with vars := frameSet (c.scope.get ⟨i, hi⟩).vars t v }) })) ∧
    (∀ (c : Context) (t : Token), ¬ c.scope = [] →
      (∀ s ∈ c.scope, frameHas s.vars t = false) →
      getScopeIdx c t = c.scope.length - 1 ∧
      (¬ t.typ = TokType.tnumber → ctxGet c t = Expr.empty)) := by
  constructor
  · intro c t i hi hhas habove
    have hlm := lastMatch_some t c.scope i hi hhas habove
    have hidx : getScopeIdx c t = i := by
      rw [getScopeIdx_eq_lastMatch, hlm]
    refine ⟨hidx, ?_, ?_⟩
    · intro hnum
      simp [ctxGet, hnum, hidx, List.getElem?_eq_getElem hi, List.get_eq_getElem]
    · intro hconst v
      simp [ctxSet, hconst, hidx, List.getElem?_eq_getElem hi, List.get_eq_getElem]
  · intro c t hne hall
    have hlm := lastMatch_none t c.scope hall
    have hidx : getScopeIdx c t = c.scope.length - 1 := by
      rw [getScopeIdx_eq_lastMatch, hlm]
    have hlen : 0 < c.scope.length := List.length_pos.mpr hne
    have hlt : c.scope.length - 1 < c.scope.length := by omega
    refine ⟨hidx, ?_⟩
    intro hnum
    have hmem : c.scope.get ⟨c.scope.length - 1, hlt⟩ ∈ c.scope := List.get_mem _ _ _
    have hnone := frameLookup_eq_none_of_not_has _ t (hall _ hmem)
    simp only [List.get_eq_getElem] at hnone
    simp [ctxGet, hnum, hidx, List.getElem?_eq_getElem hlt, hnone]

/-- xTokC1 is the atom used by the C1 concrete scope stacks. -/
def xTokC1 : Token := ⟨TokType.tatom, "x", 0⟩

/-- cexC1 is a context whose global frame binds x to 1 and whose innermost
frame binds x to 2. -/
def cexC1 : Context :=
  { scope := [⟨[(xTokC1, Expr.atom (numTok 1))], topName, Expr.empty⟩,
              ⟨[(xTokC1, Expr.atom (numTok 2))], "f", Expr.empty⟩],
    stackDepth := 0, maxStackDepth := 0 }

/-- C1: counterexample to the claim as stated. In `cexC1` the atom x is
bound in two frames; the claim says get returns the outermost binding 1 and
set rebinds the outermost frame, but get returns the innermost binding 2
and set rebinds the innermost frame, leaving the global binding intact. -/
theorem C1_counterexample :
    frameHas (⟨[(xTokC1, Expr.atom (numTok 1))], topName, Expr.empty⟩ : Scope).vars xTokC1 = true ∧
    frameHas (⟨[(xTokC1, Expr.atom (numTok 2))], "f", Expr.empty⟩ : Scope).vars xTokC1 = true ∧
    ctxGet cexC1 xTokC1 = Expr.atom (numTok 2) ∧
    ¬ ctxGet cexC1 xTokC1 = Expr.atom (numTok 1) ∧
    ctxSet cexC1 xTokC1 (Expr.atom (numTok 9)) = Except.ok
      { scope := [⟨[(xTokC1, Expr.atom (numTok 1))], topName, Expr.empty⟩,
                  ⟨[(xTokC1, Expr.atom (numTok 9))], "f", Expr.empty⟩],
        stackDepth := 0, maxStackDepth := 0 } := by
  refine ⟨by decide, by decide, by decide, by decide, by rfl⟩

/-- C1: witness instantiating the amended theorem on `cexC1` (bound case,
innermost frame index 1) and on an unbound atom (innermost frame chosen). -/
theorem C1_scope_lookup_amended_witness :
    (getScopeIdx cexC1 xTokC1 = 1 ∧
      (¬ xTokC1.typ = TokType.tnumber →
        ctxGet cexC1 xTokC1 =
          (frameLookup (cexC1.scope.get ⟨1, by decide⟩).vars xTokC1).getD Expr.empty)) ∧
    (getScopeIdx cexC1 ⟨TokType.tatom, "y", 0⟩ = cexC1.scope.length - 1) := by
  constructor
  · have h := (C1_scope_lookup_amended.1 cexC1 xTokC1 1 (by decide) (by decide)
      (by decide))
    exact ⟨h.1, h.2.1⟩
  · exact (C1_scope_lookup_amended.2 cexC1 ⟨TokType.tatom, "y", 0⟩ (by decide) (by decide)).1


/-- qQuoteA is the program (quote a), whose evaluation enters apply exactly
once (for the vacuous lambda) and needs one simultaneous activation. -/
def qQuoteA : Expr :=
  Expr.cons (Expr.atom tokQuoteA) (Expr.cons (Expr.atom (mkStr ("a"))) Expr.empty)

/-- globalScopeM is the global frame `NewContext` builds. -/
def globalScopeM : Scope :=
  ⟨[(tokT, constT), (tokF, constF), (tokNil, constNIL)], topName, Expr.empty⟩

/-- ctxDepth1 is the context after one successful evaluation under limit 2:
all frames are popped but the counter keeps the entry count. -/
def ctxDepth1 : Context :=
  { scope := [globalScopeM], stackDepth := 1, maxStackDepth := 2 }

/-- ctxDepth2 is the context after two successful evaluations. -/
def ctxDepth2 : Context :=
  { scope := [globalScopeM], stackDepth := 2, maxStackDepth := 2 }

/-- C2: the claim says the depth counter is decremented when an activation
returns, so the stack-too-deep error fires only when the simultaneous
activations exceed the limit. In the code `pop` never touches the counter:
with limit 2, three successive evaluations of (quote a) — each of which has
at most one live apply activation and pops back to the global frame —
accumulate the counter to 3 and the third one panics "stack too deep". -/
theorem C2_depth_counter_never_decremented :
    (∀ c : Context, (ctxPop c).stackDepth = c.stackDepth) ∧
    evalTop 9 (newContext 2) qQuoteA = Except.ok (Expr.atom (mkStr ("a")), ctxDepth1) ∧
    ctxDepth1.stackDepth = 1 ∧ ctxDepth1.scope.length = 1 ∧
    evalTop 9 ctxDepth1 qQuoteA = Except.ok (Expr.atom (mkStr ("a")), ctxDepth2) ∧
    ctxDepth2.stackDepth = 2 ∧ ctxDepth2.scope.length = 1 ∧
    evalTop 9 ctxDepth2 qQuoteA = Except.error (Err.lisp ("stack too deep")) := by
  refine ⟨fun c => rfl, by rfl, by rfl, by rfl, by rfl, by rfl, by rfl, by rfl⟩


/-- runOnce composes the pipeline on one program string: lex and parse one
list expression, evaluate it from a fresh unlimited context, and keep the
resulting value (parse failures are marked distinctly). -/
def runOnce (fuel : Nat) (s : String) : Except Err Expr :=
  match parseListStr s with
  | Except.ok e => (evalTop fuel (newContext 0) e).map Prod.fst
  | Except.error _ => Except.error (Err.lisp ("parse error"))

/-- C3: the apply elementary takes its two evaluated arguments and
re-enters apply with the first as the function and the one-element list
holding the second as the argument list, the re-entry label being the one
its caller passes there (the fixed string applyFunc, independent of the
invoking token); end to end, (apply (quote (lambda (n) (add 2 n))) 3)
computes 5. -/
theorem C3_apply_elementary :
    (∀ (fuel : Nat) (c : Context) (t : Token) (f x : Expr),
      applyFuncM (fuel + 1) c t (Expr.cons f (Expr.cons x Expr.empty)) =
        applyM fuel c ("applyFunc") f (Expr.cons x Expr.empty)) ∧
    (∀ (fuel : Nat) (c : Context) (x : Expr),
      runElem (fuel + 1) c tokApply x = applyFuncM fuel c tokApply x) ∧
    runOnce 64 ("(apply (quote (lambda (n) (add 2 n))) 3)") =
      Except.ok (Expr.atom (numTok 5)) := by
  refine ⟨fun fuel c t f x => rfl, fun fuel c x => rfl, by decide⟩

/-- C7: evcon on an exhausted clause list raises no-true-case; truthiness
is strict equality with the T constant, so F, nil, the empty expression and
every number count false; each clause evaluates its test first and either
evaluates its result or recurses on the remaining clauses; end to end, cond
picks the first clause whose test evaluates to T and errors when none
does. -/
theorem C7_evcon_strict :
    (∀ (fuel : Nat) (c : Context),
      evconM (fuel + 1) c Expr.empty = Except.error (Err.lisp ("no true case in cond"))) ∧
    (∀ e : Expr, isTrue e = true ↔ e = Expr.atom tokT) ∧
    isTrue constF = false ∧ isTrue constNIL = false ∧ isTrue Expr.empty = false ∧
    (∀ n : Int, isTrue (Expr.atom (numTok n)) = false) ∧
    (∀ (fuel : Nat) (c : Context) (cl rest : Expr),
      evconM (fuel + 1) c (Expr.cons cl rest) =
        match evalM fuel c (Car cl) with
        | Except.ok (v, c1) =>
          if isTrue v then evalM fuel c1 (Car (Cdr cl)) else evconM fuel c1 rest
        | Except.error er => Except.error er) ∧
    runOnce 64 ("(cond ((eq 1 2) (quote a)) (F (quote b)) (T (quote c)))") =
      Except.ok (Expr.atom (mkStr ("c"))) ∧
    runOnce 64 ("(cond (1 (quote a)) (T (quote b)))") =
      Except.ok (Expr.atom (mkStr ("b"))) ∧
    runOnce 64 ("(cond (F (quote a)))") =
      Except.error (Err.lisp ("no true case in cond")) := by
  refine ⟨fun fuel c => rfl, fun e => ?_, rfl, rfl, rfl, fun n => ?_, fun fuel c cl rest => rfl,
    by decide, by decide, by decide⟩
  · simp [isTrue]
  · simp [isTrue, numTok, tokT]

/-- cadCompose is the composition of Car and Cdr dictated by the middle
letters, the leftmost letter outermost. -/
def cadCompose : List Char → Expr → Expr
  | [], x => x
  | ch :: rest, x => if ch = 'a' then Car (cadCompose rest x) else Cdr (cadCompose rest x)

/-- cadrStep is one letter of the walk. -/
def cadrStep (e : Expr) (ch : Char) : Expr :=
  if ch = 'a' then Car e else Cdr e

/-- cadrStep_empty notes both projections of nil are nil. -/
theorem cadrStep_empty (ch : Char) : cadrStep Expr.empty ch = Expr.empty := by
  simp [cadrStep, Car, Cdr]

/-- foldl_cadrStep_empty propagates nil through the whole walk. -/
theorem foldl_cadrStep_empty (l : List Char) :
    l.foldl cadrStep Expr.empty = Expr.empty := by
  induction l with
  | nil => rfl
  | cons ch rest ih => simp [List.foldl_cons, cadrStep_empty, ih]

/-- cadrSteps_eq_foldl removes the early exit of the walking loop: since
both projections send nil to nil, stopping early at nil equals folding on. -/
theorem cadrSteps_eq_foldl (l : List Char) :
    ∀ e : Expr, cadrSteps l e = l.foldl cadrStep e := by
  induction l with
  | nil => intro e; rfl
  | cons ch rest ih =>
    intro e
    by_cases he : e = Expr.empty
    · subst he
      simp [cadrSteps, List.foldl_cons, cadrStep_empty, foldl_cadrStep_empty]
    · simp [cadrSteps, he, List.foldl_cons, ih, cadrStep]

/-- foldl_reverse_eq_cadCompose identifies the right-to-left walk with the
leftmost-outermost composition. -/
theorem foldl_reverse_eq_cadCompose (mid : List Char) :
    ∀ x : Expr, (mid.reverse).foldl cadrStep x = cadCompose mid x := by
  induction mid with
  | nil => intro x; rfl
  | cons ch rest ih =>
    intro x
    simp [List.reverse_cons, List.foldl_append, ih, cadCompose, cadrStep]

/-- C8: a name of shape c[ad]+r with at least one middle letter passes
isCadR, and applying it walks the middle letters right to left, the
leftmost letter giving the outermost projection; the two-letter name cr is
rejected; end to end, caaaddr extracts the 5 from the repository's own test
input. -/
theorem C8_composite_cadr :
    (∀ (mid : List Char) (x : Expr),
      ¬ mid = [] → (∀ ch ∈ mid, ch = 'a' ∨ ch = 'd') →
      isCadR ('c' :: (mid ++ ['r'])) = true ∧
      cadrFunc ⟨TokType.tatom, String.mk ('c' :: (mid ++ ['r'])), 0⟩ (Expr.cons x Expr.empty) =
        cadCompose mid x) ∧
    isCadR ['c', 'r'] = false ∧
    runOnce 64 ("(caaaddr (quote ((1 2) (3 4) ((5 6)) (7 8))))") =
      Except.ok (Expr.atom (numTok 5)) := by
  refine ⟨?_, by decide, by decide⟩
  intro mid x hne had
  have hcad : isCadR ('c' :: (mid ++ ['r'])) = true := by
    have hlen : ('c' :: (mid ++ ['r'])).length = mid.length + 2 := by simp
    have hmid : ¬ mid.length = 0 := fun h => hne (List.eq_nil_of_length_eq_zero h)
    have hlast : ('c' :: (mid ++ ['r'])).getLast? = some 'r' := by
      have hc : ('c' :: (mid ++ ['r'])) = ('c' :: mid) ++ ['r'] := by simp
      rw [hc, List.getLast?_concat]
    simp [isCadR, hlen, hlast, List.dropLast_concat]
    refine ⟨by omega, ?_⟩
    intro ch hmem
    rcases had ch hmem with h | h <;> simp [h]
  refine ⟨hcad, ?_⟩
  have hdata : (String.mk ('c' :: (mid ++ ['r']))).data = 'c' :: (mid ++ ['r']) := rfl
  simp only [cadrFunc, hdata, hcad, if_pos]
  have hmiddle : cadrMiddle ('c' :: (mid ++ ['r'])) = mid := by
    simp [cadrMiddle, List.dropLast_concat]
  rw [hmiddle, cadrSteps_eq_foldl, foldl_reverse_eq_cadCompose]
  simp [Car]


/-- C8: witness instantiating the composite theorem at the name caaddr and
a concrete argument. -/
theorem C8_composite_cadr_witness :
    isCadR ('c' :: (['a', 'a', 'd', 'd'] ++ ['r'])) = true ∧
    cadrFunc ⟨TokType.tatom, String.mk ('c' :: (['a', 'a', 'd', 'd'] ++ ['r'])), 0⟩
        (Expr.cons (Expr.cons (Expr.atom (numTok 1)) (Expr.atom (numTok 2))) Expr.empty) =
      cadCompose ['a', 'a', 'd', 'd']
        (Expr.cons (Expr.atom (numTok 1)) (Expr.atom (numTok 2))) := by
  exact C8_composite_cadr.1 ['a', 'a', 'd', 'd']
    (Expr.cons (Expr.atom (numTok 1)) (Expr.atom (numTok 2))) (by decide) (by decide)

/-- C9: the nil constant is an atom-shaped expression distinct from the
empty expression, both printing as nil; atom answers T on nil and F on the
parsed empty list, null answers F on nil and T on the parsed empty list. -/
theorem C9_nil_atom_distinct_from_empty :
    constNIL = Expr.atom tokNil ∧
    ¬ constNIL = Expr.empty ∧
    printListCh constNIL = "nil".data ∧
    printListCh Expr.empty = "nil".data ∧
    runOnce 64 ("(atom nil)") = Except.ok constT ∧
    runOnce 64 ("(null nil)") = Except.ok constF ∧
    runOnce 64 ("(null (quote ()))") = Except.ok constT ∧
    runOnce 64 ("(atom (quote ()))") = Except.ok constF := by
  refine ⟨rfl, by decide, by decide, by decide, by decide, by decide, by decide, by decide⟩

/-- C10: evaluating an atom that is not a number, not one of the interned
constants, not an elementary name and bound in no frame returns the empty
expression without error; the undefined error arises only when such a name
is applied in function position. -/
theorem C10_unbound_atom_evaluates_to_empty :
    (∀ (fuel : Nat) (c : Context) (t : Token),
      t.typ = TokType.tatom →
      isElementaryTok t = false →
      (∀ s ∈ c.scope, frameHas s.vars t = false) →
      ¬ c.scope = [] →
      evalTop (fuel + 1) c (Expr.atom t) = Except.ok (Expr.empty, c)) ∧
    runOnce 64 ("zzz") = Except.ok Expr.empty ∧
    runOnce 64 ("(zzz)") = Except.error (Err.lisp ("undefined: (zzz)")) := by
  refine ⟨?_, by decide, by decide⟩
  intro fuel c t htyp helem hall hne
  have hget : ctxGet c t = Expr.empty := by
    have hlm := lastMatch_none t c.scope hall
    have hidx : getScopeIdx c t = c.scope.length - 1 := by
      rw [getScopeIdx_eq_lastMatch, hlm]
    have hlen : 0 < c.scope.length := List.length_pos.mpr hne
    have hlt : c.scope.length - 1 < c.scope.length := by omega
    have hmem : c.scope.get ⟨c.scope.length - 1, hlt⟩ ∈ c.scope := List.get_mem _ _ _
    have hnone := frameLookup_eq_none_of_not_has _ t (hall _ hmem)
    simp only [List.get_eq_getElem] at hnone
    have hnum : ¬ t.typ = TokType.tnumber := by rw [htyp]; intro h; cases h
    simp [ctxGet, hnum, hidx, List.getElem?_eq_getElem hlt, hnone]
  simp [evalTop, getAtomE, helem, hget]


/-- C10: witness instantiating the unbound-atom theorem at the fresh name
zzz in a fresh context. -/
theorem C10_unbound_atom_evaluates_to_empty_witness :
    evalTop (63 + 1) (newContext 0) (Expr.atom ⟨TokType.tatom, "zzz", 0⟩) =
      Except.ok (Expr.empty, newContext 0) := by
  exact C10_unbound_atom_evaluates_to_empty.1 63 (newContext 0) ⟨TokType.tatom, "zzz", 0⟩
    (by decide) (by decide) (by decide) (by decide)


/-! Lemmas about the lexer's treatment of digit strings. -/

/-- digit_not_space notes a digit rune is not whitespace. -/
theorem digit_not_space (c : Char) (h : isDigitM c = true) : isSpaceM c = false := by
  cases hsp : isSpaceM c
  · rfl
  · exfalso
    simp [isSpaceM] at hsp
    rcases hsp with h1 | h1 | h1 | h1 <;> subst h1 <;> simp [isDigitM] at h

/-- digit_ne_semi and friends refute the lexer's special-rune tests on a
digit. -/
theorem digit_ne_semi (c : Char) (h : isDigitM c = true) : ¬ c = ';' := by
  intro h1; subst h1; simp [isDigitM] at h

theorem digit_ne_lpar (c : Char) (h : isDigitM c = true) : ¬ c = '(' := by
  intro h1; subst h1; simp [isDigitM] at h

theorem digit_ne_rpar (c : Char) (h : isDigitM c = true) : ¬ c = ')' := by
  intro h1; subst h1; simp [isDigitM] at h

theorem digit_ne_dot (c : Char) (h : isDigitM c = true) : ¬ c = '.' := by
  intro h1; subst h1; simp [isDigitM] at h

theorem digit_ne_sign (c : Char) (h : isDigitM c = true) : ¬ (c = '-' ∨ c = '+') := by
  intro h1; rcases h1 with h1 | h1 <;> subst h1 <;> simp [isDigitM] at h

/-- takeWhile_all and dropWhile_all compute the scans when the predicate
holds everywhere. -/
theorem takeWhile_all {p : Char → Bool} {l : List Char} (h : ∀ x ∈ l, p x = true) :
    l.takeWhile p = l := by
  induction l with
  | nil => rfl
  | cons a t ih =>
    have ha := h a (List.mem_cons_self a t)
    simp [List.takeWhile_cons, ha, ih (fun x hx => h x (List.mem_cons_of_mem a hx))]

theorem dropWhile_all {p : Char → Bool} {l : List Char} (h : ∀ x ∈ l, p x = true) :
    l.dropWhile p = [] := by
  induction l with
  | nil => rfl
  | cons a t ih =>
    have ha := h a (List.mem_cons_self a t)
    simp [List.dropWhile_cons, ha, ih (fun x hx => h x (List.mem_cons_of_mem a hx))]

/-- C5: counterexample to the claim as stated. The hexadecimal literal 0x10
does not lex to a number token of value 16: the number scanner accumulates
only decimal digits, so the token-boundary check sees the x and raises the
invalid-token error. -/
theorem C5_counterexample :
    lexAll ("0x10".data) = Except.error ("invalid token after 0") ∧
    ¬ lexAll ("0x10".data) = Except.ok [numTok 16] := by
  refine ⟨by decide, by decide⟩

/-- C5: amended. The lexer accepts only sign-free digit runs here: a run
with no leading zero is decimal, a leading zero selects the legacy octal
base (so 017 is 15), a leading-zero run with a digit above 7 raises the
bad-number-syntax error, and a hexadecimal 0x literal never reaches the
number parser because the x fails the token-boundary check. -/
theorem C5_number_lexing_amended :
    (∀ ds : List Char, ¬ ds = [] → (∀ ch ∈ ds, isDigitM ch = true) →
      lexAll ds =
        match setString0 ds with
        | some n => Except.ok [numTok n]
        | none => Except.error ("bad number syntax: " ++ String.mk ds)) ∧
    (∀ ds : List Char, (∀ ch ∈ ds, isDigitM ch = true) → ¬ ds = [] →
      ¬ ds.head? = some '0' →
      setString0 ds = (digitsVal 10 ds).map (fun n => (n : Int))) ∧
    (∀ rest : List Char, ¬ rest = [] →
      setString0 ('0' :: rest) = (digitsVal 8 rest).map (fun n => (n : Int))) ∧
    lexAll ("017".data) = Except.ok [numTok 15] ∧
    lexAll ("123".data) = Except.ok [numTok 123] ∧
    lexAll ("08".data) = Except.error ("bad number syntax: 08") ∧
    lexAll ("0x10".data) = Except.error ("invalid token after 0") := by
  refine ⟨?_, ?_, ?_, by decide, by decide, by decide, by decide⟩
  · intro ds hne hall
    match ds, hne with
    | c :: rest, _ =>
      have hc := hall c (List.mem_cons_self c rest)
      have hrest : ∀ x ∈ rest, isDigitM x = true :=
        fun x hx => hall x (List.mem_cons_of_mem c hx)
      have htake : rest.takeWhile isDigitM = rest := takeWhile_all hrest
      have hdrop : rest.dropWhile isDigitM = [] := dropWhile_all hrest
      simp only [lexAll, lexGo, digit_not_space c hc, digit_ne_semi c hc,
        digit_ne_lpar c hc, digit_ne_rpar c hc, digit_ne_dot c hc,
        digit_ne_sign c hc, hc, htake, hdrop, Bool.false_eq_true, if_false,
        if_true, sepOk]
      cases hs : setString0 (c :: rest) with
      | some n => simp [List.length_cons, lexGo, Except.map]
      | none => simp
  · intro ds hall hne hhead
    match ds, hne with
    | c :: rest, _ =>
      have hc := hall c (List.mem_cons_self c rest)
      have hzero : ¬ c = '0' := by
        intro h1
        exact hhead (by simp [h1])
      have hminus : ¬ c = '-' := fun h => digit_ne_sign c hc (Or.inl h)
      have hplus : ¬ c = '+' := fun h => digit_ne_sign c hc (Or.inr h)
      simp [setString0, hminus, hplus, hzero]
  · intro rest hne
    simp [setString0, hne]

/-- C5: witness instantiating the amended digit-run lemma at the octal
literal 017. -/
theorem C5_number_lexing_amended_witness :
    lexAll ("017".data) =
      match setString0 ("017".data) with
      | some n => Except.ok [numTok n]
      | none => Except.error ("bad number syntax: " ++ String.mk ("017".data)) := by
  exact C5_number_lexing_amended.1 ("017".data) (by decide) (by decide)

/-- C6: counterexample to the claim as stated. In the S-expression entry
point a missing dot and a missing right parenthesis exit through log.Fatal
(modelled as the unrecoverable pfatal, distinct from the recoverable parse
error), and end of input yields the empty expression, not the EOF signal. -/
theorem C6_counterexample :
    parseSExprStr ("(a b)") = Except.error (PErr.pfatal ("expected dot, found b")) ∧
    parseSExprStr ("(a . b") = Except.error (PErr.pfatal ("expected rPar, found EOF")) ∧
    parseSExprStr ("") = Except.ok Expr.empty := by
  refine ⟨by decide, by decide, by decide⟩

/-- C6: amended. The list entry point raises recoverable parse errors on
malformed input and propagates the distinct EOF signal at end of input; the
S-expression entry point raises recoverable parse errors only for
unexpected tokens, its missing-dot and missing-right-parenthesis paths
abort fatally instead, and at end of input it returns the empty expression
rather than the EOF signal. -/
theorem C6_parser_error_signalling_amended :
    (∀ fuel : Nat, pList (fuel + 1) [] = Except.error PErr.peof) ∧
    (∀ fuel : Nat, pSExpr (fuel + 1) [] = Except.ok (Expr.empty, [])) ∧
    parseListStr ("") = Except.error PErr.peof ∧
    parseListStr (")") = Except.error (PErr.perr ("bad token in list: )")) ∧
    parseListStr ("(a") = Except.error (PErr.perr ("bad token parsing list: EOF")) ∧
    parseSExprStr (")") = Except.error (PErr.perr ("bad token in SExpr: )")) ∧
    parseSExprStr ("(a b)") = Except.error (PErr.pfatal ("expected dot, found b")) ∧
    parseSExprStr ("(a . b c)") = Except.error (PErr.pfatal ("expected rPar, found c")) ∧
    parseSExprStr ("") = Except.ok Expr.empty := by
  refine ⟨fun fuel => rfl, fun fuel => rfl, by decide, by decide, by decide, by decide,
    by decide, by decide, by decide⟩


/-! Infrastructure for the list-mode round-trip: fuel invariance of the
lexer, lexing of printed tokens, and parsing of printed token strings. -/

/-- lexGo_invariant: the lexer's fuel is irrelevant once it exceeds the
input length, since every recursion consumes at least one rune. -/
theorem lexGo_invariant : ∀ (f1 : Nat) (cs : List Char) (f2 : Nat),
    cs.length < f1 → cs.length < f2 → lexGo f1 cs = lexGo f2 cs := by
  intro f1
  induction f1 with
  | zero => intro cs f2 h1 h2; omega
  | succ n ih =>
    intro cs f2 h1 h2
    match f2, h2 with
    | m + 1, h2 =>
      match cs, h1, h2 with
      | [], _, _ => rfl
      | c :: rest, h1, h2 =>
        have hlr : rest.length < n := by simp at h1; omega
        have hlr2 : rest.length < m := by simp at h2; omega
        simp only [lexGo]
        by_cases hsp : isSpaceM c = true
        · simp only [hsp, if_true]
          simp [ih rest m hlr hlr2]
        · simp only [hsp, if_false]
          by_cases hsemi : c = ';'
          · simp only [hsemi, if_true]
            have hsl := skipLine_length_le rest
            simp [ih (skipLine rest) m (by omega) (by omega)]
          · simp only [hsemi, if_false]
            by_cases hlp : c = '('
            · simp only [hlp, if_true]
              simp [ih rest m hlr hlr2]
            · simp only [hlp, if_false]
              by_cases hrp : c = ')'
              · simp only [hrp, if_true]
                simp [ih rest m hlr hlr2]
              · simp only [hrp, if_false]
                by_cases hdot : c = '.'
                · simp only [hdot, if_true]
                  simp [ih rest m hlr hlr2]
                · simp only [hdot, if_false]
                  by_cases hsign : (c = '-' ∨ c = '+')
                  · simp only [hsign, if_true]
                    cases rest with
                    | nil => rfl
                    | cons d tail =>
                      have hdw := dropWhile_length_le isDigitM (d :: tail)
                      have hIH := ih (List.dropWhile isDigitM (d :: tail)) m
                        (by omega) (by omega)
                      by_cases hd : isDigitM d = true
                      · simp only [hd, if_true]
                        cases hso : sepOk (List.dropWhile isDigitM (d :: tail))
                        · simp [hso]
                        · cases hss : setString0 (c :: List.takeWhile isDigitM (d :: tail))
                          · simp [hso, hss]
                          · simp [hso, hss, hIH]
                      · simp only [hd, if_false]
                        simp [ih (d :: tail) m hlr hlr2]
                  · simp only [hsign, if_false]
                    by_cases hdig : isDigitM c = true
                    · simp only [hdig, if_true]
                      have hdw := dropWhile_length_le isDigitM rest
                      have hIH := ih (List.dropWhile isDigitM rest) m (by omega) (by omega)
                      cases hso : sepOk (List.dropWhile isDigitM rest)
                      · simp [hso]
                      · cases hss : setString0 (c :: List.takeWhile isDigitM rest)
                        · simp [hso, hss]
                        · simp [hso, hss, hIH]
                    · simp only [hdig, if_false]
                      by_cases hq : c = Char.ofNat 39
                      · simp only [hq, if_true]
                        simp [ih rest m hlr hlr2]
                      · simp only [hq, if_false]
                        by_cases hw : (c = '_' ∨ isLetterM c = true)
                        · simp only [hw, if_true]
                          have hdw := dropWhile_length_le isAlphanumM rest
                          have hIH := ih (List.dropWhile isAlphanumM rest) m (by omega) (by omega)
                          cases hso : sepOk (List.dropWhile isAlphanumM rest)
                          · simp [hso]
                          · simp [hso, hIH]
                        · simp only [hw, if_false]
                          simp [ih rest m hlr hlr2]


/-- alpha_val_bounds extracts code-point bounds from isAlpha. -/
theorem alpha_val_bounds (c : Char) (ha : c.isAlpha = true) :
    (65 ≤ c.val.toNat ∧ c.val.toNat ≤ 90) ∨ (97 ≤ c.val.toNat ∧ c.val.toNat ≤ 122) := by
  simp [Char.isAlpha, Char.isUpper, Char.isLower, Char.le_def] at ha
  rcases ha with ⟨h1, h2⟩ | ⟨h1, h2⟩
  · exact Or.inl ⟨h1, h2⟩
  · exact Or.inr ⟨h1, h2⟩

/-- wordstart_props: the first rune of an identifier fails every earlier
test of the lexer dispatch. -/
theorem wordstart_props (c : Char) (hw : c = '_' ∨ isLetterM c = true) :
    isSpaceM c = false ∧ ¬ c = ';' ∧ ¬ c = '(' ∧ ¬ c = ')' ∧ ¬ c = '.' ∧
    ¬ (c = '-' ∨ c = '+') ∧ isDigitM c = false ∧ ¬ c = Char.ofNat 39 := by
  rcases hw with h | h
  · subst h
    refine ⟨by decide, by decide, by decide, by decide, by decide, by decide, by decide, by decide⟩
  · simp [isLetterM] at h
    rcases h with ha | hlam
    · rcases alpha_val_bounds c ha with ⟨h1, h2⟩ | ⟨h1, h2⟩ <;>
      · refine ⟨?_, ?_, ?_, ?_, ?_, ?_, ?_, ?_⟩
        · cases hs : isSpaceM c
          · rfl
          · exfalso
            simp [isSpaceM] at hs
            rcases hs with h3 | h3 | h3 | h3 <;> subst h3 <;> revert h1 <;> decide
        · intro h3; subst h3; revert h1; decide
        · intro h3; subst h3; revert h1; decide
        · intro h3; subst h3; revert h1; decide
        · intro h3; subst h3; revert h1; decide
        · intro h3; rcases h3 with h3 | h3 <;> subst h3 <;> revert h1 <;> decide
        · cases hd : isDigitM c
          · rfl
          · exfalso
            simp [isDigitM, Char.le_def] at hd
            obtain ⟨h3, h4⟩ := hd
            have a3 : 48 ≤ c.val.toNat := h3
            have a4 : c.val.toNat ≤ 57 := h4
            omega
        · intro h3; subst h3; revert h1; decide
    · subst hlam
      refine ⟨by decide, by decide, by decide, by decide, by decide, by decide, by decide, by decide⟩

/-- sep_not_alphanum: a separator rune cannot continue an identifier or a
number. -/
theorem sep_not_alphanum (x : Char)
    (h : isSpaceM x = true ∨ x = '(' ∨ x = ')' ∨ x = '.') : isAlphanumM x = false := by
  rcases h with h | h | h | h
  · simp [isSpaceM] at h
    rcases h with h | h | h | h <;> subst h <;> decide
  all_goals subst h; decide

/-- sep_not_digit specialises to the digit scan. -/
theorem sep_not_digit (x : Char)
    (h : isSpaceM x = true ∨ x = '(' ∨ x = ')' ∨ x = '.') : isDigitM x = false := by
  have := sep_not_alphanum x h
  cases hd : isDigitM x
  · rfl
  · exfalso
    rw [isAlphanumM] at this
    simp [hd] at this

/-- scan_stop_of_sepOk: a separator-started suffix stops both scans. -/
theorem scan_stop_of_sepOk (p : Char → Bool) (l : List Char) (hsep : sepOk l = true)
    (hp : ∀ x : Char, (isSpaceM x = true ∨ x = '(' ∨ x = ')' ∨ x = '.') → p x = false) :
    l.takeWhile p = [] ∧ l.dropWhile p = l := by
  cases l with
  | nil => exact ⟨rfl, rfl⟩
  | cons x t =>
    have hx : p x = false := by
      apply hp
      simp [sepOk] at hsep
      rcases hsep with h | h | h | h
      · exact Or.inl h
      · exact Or.inr (Or.inl h)
      · exact Or.inr (Or.inr (Or.inl h))
      · exact Or.inr (Or.inr (Or.inr h))
    simp [List.takeWhile_cons, List.dropWhile_cons, hx]

/-- takeWhile_append_all and dropWhile_append_all push a scan through a
prefix on which the predicate holds. -/
theorem takeWhile_append_all {p : Char → Bool} {l1 l2 : List Char}
    (h : ∀ x ∈ l1, p x = true) : (l1 ++ l2).takeWhile p = l1 ++ l2.takeWhile p := by
  induction l1 with
  | nil => simp
  | cons a t ih =>
    have ha := h a (List.mem_cons_self a t)
    simp [List.takeWhile_cons, ha, ih (fun x hx => h x (List.mem_cons_of_mem a hx))]

theorem dropWhile_append_all {p : Char → Bool} {l1 l2 : List Char}
    (h : ∀ x ∈ l1, p x = true) : (l1 ++ l2).dropWhile p = l2.dropWhile p := by
  induction l1 with
  | nil => simp
  | cons a t ih =>
    have ha := h a (List.mem_cons_self a t)
    simp [List.dropWhile_cons, ha, ih (fun x hx => h x (List.mem_cons_of_mem a hx))]

/-- Evaluated rune facts about the printer's punctuation, registered for
simp so the lexer dispatch reduces on them. -/
@[simp] theorem spaceM_blank : isSpaceM ' ' = true := by decide
@[simp] theorem spaceM_lpar : isSpaceM '(' = false := by decide
@[simp] theorem spaceM_rpar : isSpaceM ')' = false := by decide
@[simp] theorem spaceM_dot : isSpaceM '.' = false := by decide
@[simp] theorem spaceM_q39 : isSpaceM (Char.ofNat 39) = false := by decide
@[simp] theorem lpar_ne_semi : ¬ ('(' = ';') := by decide
@[simp] theorem rpar_ne_semi : ¬ (')' = ';') := by decide
@[simp] theorem dot_ne_semi : ¬ ('.' = ';') := by decide
@[simp] theorem q39_ne_semi : ¬ (Char.ofNat 39 = ';') := by decide
@[simp] theorem rpar_ne_lpar : ¬ (')' = '(') := by decide
@[simp] theorem dot_ne_lpar : ¬ ('.' = '(') := by decide
@[simp] theorem q39_ne_lpar : ¬ (Char.ofNat 39 = '(') := by decide
@[simp] theorem dot_ne_rpar : ¬ ('.' = ')') := by decide
@[simp] theorem q39_ne_rpar : ¬ (Char.ofNat 39 = ')') := by decide
@[simp] theorem q39_ne_dot : ¬ (Char.ofNat 39 = '.') := by decide
@[simp] theorem q39_ne_minus : ¬ (Char.ofNat 39 = '-') := by decide
@[simp] theorem q39_ne_plus : ¬ (Char.ofNat 39 = '+') := by decide
@[simp] theorem digitM_q39 : isDigitM (Char.ofNat 39) = false := by decide

/-- lexAll_space: a leading blank is skipped. -/
theorem lexAll_space (cs : List Char) : lexAll (' ' :: cs) = lexAll cs := by
  simp [lexAll, lexGo]

/-- lexAll_lpar, lexAll_rpar, lexAll_dot, lexAll_quote: single-rune
tokens prepend their token. -/
theorem lexAll_lpar (cs : List Char) :
    lexAll ('(' :: cs) = (lexAll cs).map (fun ts => tokLparT :: ts) := by
  simp [lexAll, lexGo]

theorem lexAll_rpar (cs : List Char) :
    lexAll (')' :: cs) = (lexAll cs).map (fun ts => tokRparT :: ts) := by
  simp [lexAll, lexGo]

theorem lexAll_dot (cs : List Char) :
    lexAll ('.' :: cs) = (lexAll cs).map (fun ts => tokDotT :: ts) := by
  simp [lexAll, lexGo]

theorem lexAll_quote (cs : List Char) :
    lexAll (Char.ofNat 39 :: cs) = (lexAll cs).map (fun ts => tokQuoteT :: ts) := by
  simp [lexAll, lexGo]


/-! Decimal rendering of integers lexes back to the same value. -/

/-- digit_char_ofNat: the rune of a decimal digit is a digit rune. -/
theorem digit_char_ofNat (k : Nat) (h : k < 10) :
    isDigitM (Char.ofNat (48 + k)) = true := by
  interval_cases k <;> decide

/-- digitVal_char_ofNat: the value of the rune of a digit is the digit. -/
theorem digitVal_char_ofNat (k : Nat) (h : k < 10) :
    digitVal (Char.ofNat (48 + k)) = k := by
  interval_cases k <;> decide

/-- char_ofNat_digit_ne_zero: a nonzero digit does not print as the zero
rune. -/
theorem char_ofNat_digit_ne_zero (k : Nat) (h1 : 1 ≤ k) (h2 : k < 10) :
    ¬ Char.ofNat (48 + k) = '0' := by
  interval_cases k <;> decide

/-- digitVal_lt_10: a digit rune's value is below ten. -/
theorem digitVal_lt_10 (c : Char) (h : isDigitM c = true) : digitVal c < 10 := by
  simp [isDigitM, Char.le_def] at h
  obtain ⟨h1, h2⟩ := h
  have a1 : 48 ≤ c.val.toNat := h1
  have a2 : c.val.toNat ≤ 57 := h2
  simp [digitVal, Char.toNat]
  omega

/-- natDigits_all_digits: every rune of a decimal rendering is a digit. -/
theorem natDigits_all_digits : ∀ n : Nat, ∀ x ∈ natDigits n, isDigitM x = true := by
  intro n
  induction n using Nat.strong_induction_on with
  | _ n ih =>
    intro x hx
    rw [natDigits] at hx
    by_cases h : n < 10
    · simp [h] at hx
      subst hx
      exact digit_char_ofNat n h
    · simp [h] at hx
      rcases hx with hx | hx
      · exact ih (n / 10) (Nat.div_lt_self (by omega) (by decide)) x hx
      · subst hx
        exact digit_char_ofNat (n % 10) (Nat.mod_lt _ (by decide))

/-- natDigits_ne_nil: a decimal rendering is never empty. -/
theorem natDigits_ne_nil (n : Nat) : ¬ natDigits n = [] := by
  rw [natDigits]
  by_cases h : n < 10 <;> simp [h]

/-- digitsVal10_append_digit folds one more digit into the value. -/
theorem digitsVal10_append_digit (xs : List Char) (d : Char) (hd : isDigitM d = true) :
    digitsVal 10 (xs ++ [d]) = (digitsVal 10 xs).map (fun v => v * 10 + digitVal d) := by
  simp only [digitsVal, List.foldl_append, List.foldl_cons, List.foldl_nil]
  cases List.foldl _ (some 0) xs with
  | none => rfl
  | some v => simp [hd, digitVal_lt_10 d hd]

/-- digitsVal10_natDigits: the decimal rendering evaluates back to the
number. -/
theorem digitsVal10_natDigits : ∀ n : Nat, digitsVal 10 (natDigits n) = some n := by
  intro n
  induction n using Nat.strong_induction_on with
  | _ n ih =>
    rw [natDigits]
    by_cases h : n < 10
    · simp [h, digitsVal, digitVal_char_ofNat n h, digit_char_ofNat n h]
    · simp only [h, dite_false]
      rw [digitsVal10_append_digit _ _ (digit_char_ofNat (n % 10) (Nat.mod_lt _ (by decide)))]
      rw [ih (n / 10) (Nat.div_lt_self (by omega) (by decide))]
      simp [digitVal_char_ofNat (n % 10) (Nat.mod_lt _ (by decide))]
      omega

/-- natDigits_head_ne_zero: a positive number never prints with a leading
zero rune. -/
theorem natDigits_head_ne_zero : ∀ n : Nat, 1 ≤ n → ¬ (natDigits n).head? = some '0' := by
  intro n
  induction n using Nat.strong_induction_on with
  | _ n ih =>
    intro h1
    rw [natDigits]
    by_cases h : n < 10
    · simp [h]
      exact char_ofNat_digit_ne_zero n h1 h
    · simp only [h, dite_false]
      cases hxs : natDigits (n / 10) with
      | nil => exact absurd hxs (natDigits_ne_nil (n / 10))
      | cons a t =>
        have hrec := ih (n / 10) (Nat.div_lt_self (by omega) (by decide)) (by omega)
        rw [hxs] at hrec
        simp at hrec ⊢
        exact hrec

/-- mag_natDigits: the magnitude branch of setString0 on a decimal
rendering returns the number (the legacy-octal branch never fires because
there is no leading zero except for the single rune 0 itself). -/
theorem mag_natDigits (k : Nat) (c : Char) (rest : List Char) (hxs : natDigits k = c :: rest) :
    (if c = '0' ∧ ¬ rest = [] then digitsVal 8 rest else digitsVal 10 (c :: rest)) = some k := by
  by_cases hoc : c = '0' ∧ ¬ rest = []
  · exfalso
    obtain ⟨hc0, hre⟩ := hoc
    by_cases hk : k = 0
    · subst hk
      have h0 : natDigits 0 = ['0'] := by rw [natDigits]; simp
      rw [h0] at hxs
      injection hxs with e1 e2
      exact hre e2.symm
    · have hhead := natDigits_head_ne_zero k (by omega)
      rw [hxs] at hhead
      simp [hc0] at hhead
  · simp only [hoc, if_false]
    rw [← hxs, digitsVal10_natDigits]

/-- setString0_intDigits: SetString with base 0 inverts the decimal
rendering of any integer. -/
theorem setString0_intDigits (m : Int) : setString0 (intDigits m) = some m := by
  by_cases hm : m < 0
  · simp only [intDigits, hm, if_true]
    cases hxs : natDigits m.natAbs with
    | nil => exact absurd hxs (natDigits_ne_nil _)
    | cons c rest =>
      simp only [setString0]
      simp [mag_natDigits m.natAbs c rest hxs]
      rw [abs_of_neg hm]
      simp
  · simp only [intDigits, hm, if_false]
    cases hxs : natDigits m.toNat with
    | nil => exact absurd hxs (natDigits_ne_nil _)
    | cons c rest =>
      have hcdig := natDigits_all_digits m.toNat c (by rw [hxs]; exact List.mem_cons_self c rest)
      have hminus : ¬ c = '-' := fun h => digit_ne_sign c hcdig (Or.inl h)
      have hplus : ¬ c = '+' := fun h => digit_ne_sign c hcdig (Or.inr h)
      simp only [setString0]
      simp [hminus, hplus, mag_natDigits m.toNat c rest hxs]
      omega


/-- lexGo_succ restates one step of the lexer on a nonempty stream; it is
definitional. -/
theorem lexGo_succ (fuel : Nat) (c : Char) (rest : List Char) :
    lexGo (fuel + 1) (c :: rest) =
      (if isSpaceM c then lexGo fuel rest
       else if c = ';' then lexGo fuel (skipLine rest)
       else if c = '(' then (lexGo fuel rest).map (fun ts => tokLparT :: ts)
       else if c = ')' then (lexGo fuel rest).map (fun ts => tokRparT :: ts)
       else if c = '.' then (lexGo fuel rest).map (fun ts => tokDotT :: ts)
       else if c = '-' ∨ c = '+' then
         match rest with
         | d :: _ =>
           if isDigitM d then
             let ds := c :: rest.takeWhile isDigitM
             let rem := rest.dropWhile isDigitM
             if sepOk rem then
               match setString0 ds with
               | some n => (lexGo fuel rem).map (fun ts => numTok n :: ts)
               | none => Except.error ("bad number syntax: " ++ String.mk ds)
             else Except.error ("invalid token after " ++ String.mk ds)
           else (lexGo fuel rest).map (fun ts => charTok c :: ts)
         | [] => Except.ok [charTok c]
       else if isDigitM c then
         let ds := c :: rest.takeWhile isDigitM
         let rem := rest.dropWhile isDigitM
         if sepOk rem then
           match setString0 ds with
           | some n => (lexGo fuel rem).map (fun ts => numTok n :: ts)
           | none => Except.error ("bad number syntax: " ++ String.mk ds)
         else Except.error ("invalid token after " ++ String.mk ds)
       else if c = Char.ofNat 39 then (lexGo fuel rest).map (fun ts => tokQuoteT :: ts)
       else if c = '_' ∨ isLetterM c then
         let ds := c :: rest.takeWhile isAlphanumM
         let rem := rest.dropWhile isAlphanumM
         if sepOk rem then (lexGo fuel rem).map (fun ts => mkStr (String.mk ds) :: ts)
         else Except.error ("invalid token after " ++ String.mk ds)
       else (lexGo fuel rest).map (fun ts => charTok c :: ts)) := rfl

/-- lexAll_word: an identifier followed by a separator lexes to its
interned word token followed by the rest. -/
theorem lexAll_word (c : Char) (tail rest : List Char)
    (hc : c = '_' ∨ isLetterM c = true)
    (htail : ∀ x ∈ tail, isAlphanumM x = true)
    (hr : sepOk rest = true) :
    lexAll ((c :: tail) ++ rest) =
      (lexAll rest).map (fun ts => mkStr (String.mk (c :: tail)) :: ts) := by
  obtain ⟨hsp, hsemi, hlp, hrp, hdot, hsign, hdig, hq⟩ := wordstart_props c hc
  have hsp' : ¬ isSpaceM c = true := by simp [hsp]
  have hdig' : ¬ isDigitM c = true := by simp [hdig]
  have hscan := scan_stop_of_sepOk isAlphanumM rest hr sep_not_alphanum
  have htake : (tail ++ rest).takeWhile isAlphanumM = tail := by
    rw [takeWhile_append_all htail, hscan.1, List.append_nil]
  have hdrop : (tail ++ rest).dropWhile isAlphanumM = rest := by
    rw [dropWhile_append_all htail, hscan.2]
  have hinv := lexGo_invariant ((tail ++ rest).length + 1) rest (rest.length + 1)
    (by simp; omega) (by omega)
  rw [List.cons_append, lexAll]
  have hlen : (c :: (tail ++ rest)).length + 1 = (tail ++ rest).length + 1 + 1 := by simp
  rw [hlen, lexGo_succ]
  rw [if_neg hsp', if_neg hsemi, if_neg hlp, if_neg hrp, if_neg hdot, if_neg hsign,
    if_neg hdig', if_neg hq, if_pos hc]
  dsimp only
  rw [htake, hdrop, if_pos hr, hinv, ← lexAll]

/-- lexAll_number: the decimal rendering of an integer followed by a
separator lexes to its number token followed by the rest. -/
theorem lexAll_number (m : Int) (rest : List Char) (hr : sepOk rest = true) :
    lexAll (intDigits m ++ rest) = (lexAll rest).map (fun ts => numTok m :: ts) := by
  have hscan := scan_stop_of_sepOk isDigitM rest hr sep_not_digit
  by_cases hm : m < 0
  · cases hxs : natDigits m.natAbs with
    | nil => exact absurd hxs (natDigits_ne_nil _)
    | cons c tail =>
      have hall : ∀ x ∈ c :: tail, isDigitM x = true := by
        rw [← hxs]; exact natDigits_all_digits m.natAbs
      have hcdig : isDigitM c = true := hall c (List.mem_cons_self c tail)
      have htake : ((c :: tail) ++ rest).takeWhile isDigitM = c :: tail := by
        rw [takeWhile_append_all hall, hscan.1, List.append_nil]
      have hdrop : ((c :: tail) ++ rest).dropWhile isDigitM = rest := by
        rw [dropWhile_append_all hall, hscan.2]
      have hset : setString0 (Char.ofNat 45 :: (c :: tail)) = some m := by
        have h2 := setString0_intDigits m
        rw [intDigits, if_pos hm, hxs] at h2
        exact h2
      have hinv := lexGo_invariant ((c :: (tail ++ rest)).length + 1) rest (rest.length + 1)
        (by simp; omega) (by omega)
      rw [intDigits, if_pos hm, hxs]
      rw [List.cons_append, List.cons_append, lexAll]
      have hlen : (Char.ofNat 45 :: (c :: (tail ++ rest))).length + 1 =
          (c :: (tail ++ rest)).length + 1 + 1 := by simp
      rw [hlen, lexGo_succ]
      rw [if_neg (show ¬ isSpaceM (Char.ofNat 45) = true from by decide),
        if_neg (show ¬ (Char.ofNat 45 = ';') from by decide),
        if_neg (show ¬ (Char.ofNat 45 = '(') from by decide),
        if_neg (show ¬ (Char.ofNat 45 = ')') from by decide),
        if_neg (show ¬ (Char.ofNat 45 = '.') from by decide),
        if_pos (show (Char.ofNat 45 = '-' ∨ Char.ofNat 45 = '+') from Or.inl (by decide))]
      dsimp only
      rw [if_pos hcdig]
      rw [show List.takeWhile isDigitM (c :: (tail ++ rest)) = c :: tail from by
          rw [← List.cons_append, htake],
        show List.dropWhile isDigitM (c :: (tail ++ rest)) = rest from by
          rw [← List.cons_append, hdrop],
        if_pos hr, hset]
      dsimp only
      rw [hinv, ← lexAll]
  · cases hxs : natDigits m.toNat with
    | nil => exact absurd hxs (natDigits_ne_nil _)
    | cons c tail =>
      have hall : ∀ x ∈ c :: tail, isDigitM x = true := by
        rw [← hxs]; exact natDigits_all_digits m.toNat
      have hcdig : isDigitM c = true := hall c (List.mem_cons_self c tail)
      have htail2 : ∀ x ∈ tail, isDigitM x = true :=
        fun x hx => hall x (List.mem_cons_of_mem c hx)
      have htake : (tail ++ rest).takeWhile isDigitM = tail := by
        rw [takeWhile_append_all htail2, hscan.1, List.append_nil]
      have hdrop : (tail ++ rest).dropWhile isDigitM = rest := by
        rw [dropWhile_append_all htail2, hscan.2]
      have hset : setString0 (c :: tail) = some m := by
        have h2 := setString0_intDigits m
        rw [intDigits, if_neg hm, hxs] at h2
        exact h2
      have hinv := lexGo_invariant ((tail ++ rest).length + 1) rest (rest.length + 1)
        (by simp; omega) (by omega)
      rw [intDigits, if_neg hm, hxs]
      rw [List.cons_append, lexAll]
      have hlen : (c :: (tail ++ rest)).length + 1 = (tail ++ rest).length + 1 + 1 := by simp
      rw [hlen, lexGo_succ]
      rw [if_neg (show ¬ isSpaceM c = true from by simp [digit_not_space c hcdig]),
        if_neg (digit_ne_semi c hcdig), if_neg (digit_ne_lpar c hcdig),
        if_neg (digit_ne_rpar c hcdig), if_neg (digit_ne_dot c hcdig),
        if_neg (digit_ne_sign c hcdig), if_pos hcdig]
      dsimp only
      rw [htake, hdrop, if_pos hr, hset]
      dsimp only
      rw [hinv, ← lexAll]


/-- isIdentCh: the character shape the lexer accepts as one identifier
token: a word-start rune followed by alphanumeric runes. -/
def isIdentCh : List Char → Bool
  | [] => false
  | c :: rest => (c = '_' ∨ isLetterM c = true) ∧ rest.all isAlphanumM

/-- goodTok describes the tokens whose printed form lexes back to the very
same token: number tokens (whose text is empty, as the lexer makes them)
and interned word tokens whose text is a lexable identifier. -/
def goodTok (t : Token) : Bool :=
  (t.typ = TokType.tnumber ∧ t.text = "") ∨ (isIdentCh t.text.data ∧ t = mkStr t.text)

mutual
/-- goodE carves out the expressions whose list-mode printing parses back
to the same expression: atoms must be good tokens, a quote-headed pair must
be a proper two-element quote form (anything else is mangled by the quote
sugar), and other pairs need a good head and a good printable tail. -/
def goodE : Expr → Bool
  | Expr.empty => false
  | Expr.atom t => goodTok t
  | Expr.cons a d =>
    if a = Expr.atom tokQuoteA then
      match d with
      | Expr.cons x Expr.empty => goodE x
      | _ => false
    else goodE a && goodTail d

/-- goodTail describes printable cdr spines: the empty tail, a dotted atom
tail that is a good token other than the elided nil atom, or a further pair
of a good element and a good tail. -/
def goodTail : Expr → Bool
  | Expr.empty => true
  | Expr.atom t => goodTok t && ¬ (t.text = "nil")
  | Expr.cons a d => goodE a && goodTail d
end

mutual
/-- printToks is the token sequence of the printed list-mode form. -/
def printToks : Expr → List Token
  | Expr.empty => [tokNil]
  | Expr.atom t => [t]
  | Expr.cons a d =>
    if a = Expr.atom tokQuoteA then
      tokQuoteT ::
        (match d with
         | Expr.cons x _ => printToks x
         | _ => [tokNil])
    else tokLparT :: ((printToks a ++ tailToks d) ++ [tokRparT])

/-- tailToks is the token sequence of a printed cdr spine. -/
def tailToks : Expr → List Token
  | Expr.empty => []
  | Expr.atom t => if t.text = "nil" then [] else [tokDotT, t]
  | Expr.cons a d => printToks a ++ tailToks d
end

/-- numTok_eta: a good number token is exactly the token its value
rebuilds. -/
theorem numTok_eta (t : Token) (h1 : t.typ = TokType.tnumber) (h2 : t.text = "") :
    numTok t.num = t := by
  cases t
  simp [numTok] at *
  exact ⟨h1.symm, h2.symm⟩

/-- mkStr_not_number: interned word tokens are never number tokens. -/
theorem mkStr_not_number (w : String) : ¬ (mkStr w).typ = TokType.tnumber := by
  rw [mkStr]
  by_cases h : w = "T" ∨ w = "F" ∨ w = "nil" <;> simp [h]

/-- lexAll_tok: the printed form of a good token, followed by a separator,
lexes to that very token. -/
theorem lexAll_tok (t : Token) (hg : goodTok t = true) (rest : List Char)
    (hr : sepOk rest = true) :
    lexAll (printTokenCh t ++ rest) = (lexAll rest).map (fun ts => t :: ts) := by
  simp only [goodTok] at hg
  simp at hg
  rcases hg with ⟨h1, h2⟩ | ⟨hident, heq⟩
  · rw [printTokenCh, if_pos h1, lexAll_number t.num rest hr, numTok_eta t h1 h2]
  · have hnn : ¬ t.typ = TokType.tnumber := by
      rw [heq]
      exact mkStr_not_number t.text
    rw [printTokenCh, if_neg hnn]
    cases hdata : t.text.data with
    | nil => rw [hdata, isIdentCh.eq_def] at hident; simp at hident
    | cons c tail =>
      rw [hdata, isIdentCh.eq_def] at hident
      simp at hident
      obtain ⟨hc, htail⟩ := hident
      rw [lexAll_word c tail rest hc (by simpa [List.all_eq_true] using htail) hr]
      have hstr : String.mk (c :: tail) = t.text := by
        apply String.ext
        simp [hdata]
      rw [hstr, ← heq]

/-- sepOk_tailCh: a printed tail always begins with a separator (or is
empty before one). -/
theorem sepOk_tailCh (d : Expr) (sq : Bool) (rest : List Char) (hr : sepOk rest = true) :
    sepOk (tailCh d sq ++ rest) = true := by
  cases d with
  | empty => simpa [tailCh]
  | atom t =>
    rw [tailCh]
    by_cases h : t.text = "nil"
    · simpa [h]
    · simp [h, sepOk, isSpaceM]
  | cons a d2 => simp [tailCh, sepOk, isSpaceM]


@[simp] theorem exceptMap_error {a b g : Type} (f : a → b) (s : g) :
    Except.map f (Except.error s : Except g a) = Except.error s := rfl

@[simp] theorem exceptMap_ok {a b g : Type} (f : a → b) (x : a) :
    Except.map f (Except.ok x : Except g a) = Except.ok (f x) := rfl

/-- rpar41 and lpar40 name the printed parenthesis runes. -/
theorem rpar41 : Char.ofNat 41 = ')' := by decide

theorem lpar40 : Char.ofNat 40 = '(' := by decide

/-- sepOk_rpar_cons: a closing parenthesis starts a separator suffix. -/
theorem sepOk_rpar_cons (rest : List Char) : sepOk (')' :: rest) = true := by
  simp [sepOk]

/-- Shape-instantiated printing equations: restating the pair equations of
buildCh, printToks, goodE at each cdr shape keeps them definitional and
avoids the split side conditions of the compiled equations. -/
theorem buildCh_cons_empty (a : Expr) (sq : Bool) :
    buildCh (Expr.cons a Expr.empty) sq =
      (if sq ∧ a = Expr.atom tokQuoteA then Char.ofNat 39 :: "nil".data
       else Char.ofNat 40 :: ((buildCh a sq ++ tailCh Expr.empty sq) ++ [Char.ofNat 41])) := rfl

theorem buildCh_cons_atom (a : Expr) (t : Token) (sq : Bool) :
    buildCh (Expr.cons a (Expr.atom t)) sq =
      (if sq ∧ a = Expr.atom tokQuoteA then Char.ofNat 39 :: "nil".data
       else Char.ofNat 40 :: ((buildCh a sq ++ tailCh (Expr.atom t) sq) ++ [Char.ofNat 41])) := rfl

theorem buildCh_cons_cons (a x y : Expr) (sq : Bool) :
    buildCh (Expr.cons a (Expr.cons x y)) sq =
      (if sq ∧ a = Expr.atom tokQuoteA then Char.ofNat 39 :: buildCh x sq
       else Char.ofNat 40 :: ((buildCh a sq ++ tailCh (Expr.cons x y) sq) ++ [Char.ofNat 41])) := rfl

theorem printToks_cons_empty (a : Expr) :
    printToks (Expr.cons a Expr.empty) =
      (if a = Expr.atom tokQuoteA then tokQuoteT :: [tokNil]
       else tokLparT :: ((printToks a ++ tailToks Expr.empty) ++ [tokRparT])) := rfl

theorem printToks_cons_atom (a : Expr) (t : Token) :
    printToks (Expr.cons a (Expr.atom t)) =
      (if a = Expr.atom tokQuoteA then tokQuoteT :: [tokNil]
       else tokLparT :: ((printToks a ++ tailToks (Expr.atom t)) ++ [tokRparT])) := rfl

theorem printToks_cons_cons (a x y : Expr) :
    printToks (Expr.cons a (Expr.cons x y)) =
      (if a = Expr.atom tokQuoteA then tokQuoteT :: printToks x
       else tokLparT :: ((printToks a ++ tailToks (Expr.cons x y)) ++ [tokRparT])) := rfl

theorem goodE_cons_empty (a : Expr) :
    goodE (Expr.cons a Expr.empty) =
      (if a = Expr.atom tokQuoteA then false else goodE a && goodTail Expr.empty) := rfl

theorem goodE_cons_atom (a : Expr) (t : Token) :
    goodE (Expr.cons a (Expr.atom t)) =
      (if a = Expr.atom tokQuoteA then false else goodE a && goodTail (Expr.atom t)) := rfl

theorem goodE_cons_cons_empty (a x : Expr) :
    goodE (Expr.cons a (Expr.cons x Expr.empty)) =
      (if a = Expr.atom tokQuoteA then goodE x else goodE a && goodTail (Expr.cons x Expr.empty)) := rfl

theorem goodE_cons_cons_atom (a x : Expr) (t : Token) :
    goodE (Expr.cons a (Expr.cons x (Expr.atom t))) =
      (if a = Expr.atom tokQuoteA then false
       else goodE a && goodTail (Expr.cons x (Expr.atom t))) := rfl

theorem goodE_cons_cons_cons (a x p q : Expr) :
    goodE (Expr.cons a (Expr.cons x (Expr.cons p q))) =
      (if a = Expr.atom tokQuoteA then false
       else goodE a && goodTail (Expr.cons x (Expr.cons p q))) := rfl

/-- goodE on a non-quote-headed pair is the conjunction of a good head and
a good tail, whatever the shape of the tail. -/
theorem goodE_cons_ne (a d : Expr) (ha : ¬ (a = Expr.atom tokQuoteA)) :
    goodE (Expr.cons a d) = (goodE a && goodTail d) := by
  cases d with
  | empty => rw [goodE_cons_empty, if_neg ha]
  | atom t => rw [goodE_cons_atom, if_neg ha]
  | cons x y =>
    cases y with
    | empty => rw [goodE_cons_cons_empty, if_neg ha]
    | atom t => rw [goodE_cons_cons_atom, if_neg ha]
    | cons p q => rw [goodE_cons_cons_cons, if_neg ha]

/-- buildCh on a non-quote-sugared pair always prints the parenthesised
form, whatever the shape of the tail. -/
theorem buildCh_cons_ne (a d : Expr) (sq : Bool)
    (ha : ¬ (sq = true ∧ a = Expr.atom tokQuoteA)) :
    buildCh (Expr.cons a d) sq =
      Char.ofNat 40 :: ((buildCh a sq ++ tailCh d sq) ++ [Char.ofNat 41]) := by
  cases d with
  | empty => rw [buildCh_cons_empty, if_neg ha]
  | atom t => rw [buildCh_cons_atom, if_neg ha]
  | cons x y => rw [buildCh_cons_cons, if_neg ha]

/-- printToks on a non-quote-headed pair always lists the parenthesised
form, whatever the shape of the tail. -/
theorem printToks_cons_ne (a d : Expr) (ha : ¬ (a = Expr.atom tokQuoteA)) :
    printToks (Expr.cons a d) =
      tokLparT :: ((printToks a ++ tailToks d) ++ [tokRparT]) := by
  cases d with
  | empty => rw [printToks_cons_empty, if_neg ha]
  | atom t => rw [printToks_cons_atom, if_neg ha]
  | cons x y => rw [printToks_cons_cons, if_neg ha]

/-- lex_print_main: lexing the printed list-mode form of a good expression
(resp. a good printed tail) produces its printed token sequence in front of
whatever the remaining separator-started input lexes to. -/
theorem lex_print_main : ∀ (n : Nat) (e : Expr), esize e ≤ n →
    ((goodE e = true → ∀ rest : List Char, sepOk rest = true →
        lexAll (buildCh e true ++ rest) = (lexAll rest).map (fun ts => printToks e ++ ts)) ∧
     (goodTail e = true → ∀ rest : List Char, sepOk rest = true →
        lexAll (tailCh e true ++ rest) = (lexAll rest).map (fun ts => tailToks e ++ ts))) := by
  intro n
  induction n with
  | zero =>
    intro e he
    cases e with
    | empty =>
      constructor
      · intro hg
        simp [goodE] at hg
      · intro _ rest hr
        simp only [tailCh, tailToks, List.nil_append]
        cases lexAll rest <;> simp
    | atom t => simp [esize] at he
    | cons a d => simp [esize] at he
  | succ n ih =>
    intro e he
    constructor
    · intro hg rest hr
      cases e with
      | empty => simp [goodE] at hg
      | atom t =>
        rw [buildCh, printToks]
        rw [lexAll_tok t (by simpa [goodE] using hg) rest hr]
        cases lexAll rest <;> simp
      | cons a d =>
        by_cases ha : a = Expr.atom tokQuoteA
        · cases d with
          | empty => rw [goodE_cons_empty, if_pos ha] at hg; exact absurd hg (by simp)
          | atom t2 => rw [goodE_cons_atom, if_pos ha] at hg; exact absurd hg (by simp)
          | cons x d2 =>
            cases d2 with
            | atom t3 => rw [goodE_cons_cons_atom, if_pos ha] at hg; exact absurd hg (by simp)
            | cons y z => rw [goodE_cons_cons_cons, if_pos ha] at hg; exact absurd hg (by simp)
            | empty =>
              rw [goodE_cons_cons_empty, if_pos ha] at hg
              have hx : esize x ≤ n := by simp [esize] at he ⊢; omega
              rw [buildCh_cons_cons, if_pos ⟨rfl, ha⟩, printToks_cons_cons, if_pos ha]
              rw [List.cons_append, lexAll_quote]
              rw [(ih x hx).1 hg rest hr]
              cases lexAll rest <;> simp
        · rw [goodE_cons_ne a d ha] at hg
          simp at hg
          obtain ⟨hga, hgd⟩ := hg
          have hsa : esize a ≤ n := by simp [esize] at he ⊢; omega
          have hsd : esize d ≤ n := by simp [esize] at he ⊢; omega
          rw [buildCh_cons_ne a d true (by simp [ha]), printToks_cons_ne a d ha]
          have hform : (Char.ofNat 40 :: ((buildCh a true ++ tailCh d true) ++ [Char.ofNat 41])) ++ rest =
              '(' :: (buildCh a true ++ (tailCh d true ++ (')' :: rest))) := by
            simp [lpar40, rpar41, List.append_assoc]
          rw [hform, lexAll_lpar]
          rw [(ih a hsa).1 hga (tailCh d true ++ (')' :: rest))
            (sepOk_tailCh d true _ (sepOk_rpar_cons rest))]
          rw [(ih d hsd).2 hgd (')' :: rest) (sepOk_rpar_cons rest)]
          rw [lexAll_rpar]
          cases lexAll rest <;> simp
    · intro hg rest hr
      cases e with
      | empty =>
        simp [tailCh, tailToks]
        cases lexAll rest <;> simp
      | atom t =>
        rw [goodTail] at hg
        simp at hg
        obtain ⟨hgt, hnil⟩ := hg
        rw [tailCh, if_neg hnil, tailToks, if_neg hnil]
        have hform : (" . ".data ++ printTokenCh t) ++ rest =
            ' ' :: '.' :: ' ' :: (printTokenCh t ++ rest) := by
          simp
        rw [hform, lexAll_space, lexAll_dot, lexAll_space]
        rw [lexAll_tok t hgt rest hr]
        cases lexAll rest <;> simp
      | cons a d =>
        rw [goodTail] at hg
        simp at hg
        obtain ⟨hga, hgd⟩ := hg
        have hsa : esize a ≤ n := by simp [esize] at he ⊢; omega
        have hsd : esize d ≤ n := by simp [esize] at he ⊢; omega
        rw [tailCh, tailToks]
        have hform : (Char.ofNat 32 :: (buildCh a true ++ tailCh d true)) ++ rest =
            ' ' :: (buildCh a true ++ (tailCh d true ++ rest)) := by
          have h32 : Char.ofNat 32 = ' ' := by decide
          simp [h32, List.append_assoc]
        rw [hform, lexAll_space]
        rw [(ih a hsa).1 hga (tailCh d true ++ rest) (sepOk_tailCh d true rest hr)]
        rw [(ih d hsd).2 hgd rest hr]
        cases lexAll rest <;> simp

/-- One-step equations for the parser at each branch: fuel and input are
constructor-headed, the branch condition is supplied as a hypothesis, and
inner parser results are supplied as equations, so each lemma follows by
unfolding one step. -/
theorem pList_step_quote (fuel : Nat) (t : Token) (rest : List Token)
    (ht : t.typ = TokType.tquote) :
    pList (fuel + 1) (t :: rest) = pQuote fuel rest := by
  rw [pList.eq_def]
  dsimp only
  rw [if_pos ht]

theorem pList_step_atom (fuel : Nat) (t : Token) (rest : List Token)
    (ht : t.typ = TokType.tatom ∨ t.typ = TokType.tconst ∨ t.typ = TokType.tnumber) :
    pList (fuel + 1) (t :: rest) = Except.ok (Expr.atom t, rest) := by
  rw [pList.eq_def]
  dsimp only
  rw [if_neg (by rcases ht with h | h | h <;> simp [h]), if_pos ht]

theorem pList_step_lpar (fuel : Nat) (t t2 : Token) (rest rest3 : List Token) (e1 : Expr)
    (ht : t.typ = TokType.tlpar)
    (hL : pLparList fuel rest = Except.ok (e1, t2 :: rest3))
    (h2 : t2.typ = TokType.trpar) :
    pList (fuel + 1) (t :: rest) = Except.ok (e1, rest3) := by
  rw [pList.eq_def]
  dsimp only
  rw [if_neg (by simp [ht]), if_neg (by simp [ht]), if_pos ht, hL]
  dsimp only
  rw [if_pos h2]

theorem pQuote_step (fuel : Nat) (toks r : List Token) (x : Expr)
    (h : pList fuel toks = Except.ok (x, r)) :
    pQuote (fuel + 1) toks =
      Except.ok (Expr.cons (Expr.atom tokQuoteA) (Expr.cons x Expr.empty), r) := by
  rw [pQuote.eq_def]
  dsimp only
  rw [h]

theorem pLparList_step_quote (fuel : Nat) (t : Token) (rest r r2 : List Token) (q l : Expr)
    (ht : t.typ = TokType.tquote)
    (h1 : pQuote fuel rest = Except.ok (q, r))
    (h2 : pLparList fuel r = Except.ok (l, r2)) :
    pLparList (fuel + 1) (t :: rest) = Except.ok (Expr.cons q l, r2) := by
  rw [pLparList.eq_def]
  dsimp only
  rw [if_pos ht, h1]
  dsimp only
  rw [h2]

theorem pLparList_step_atom (fuel : Nat) (t : Token) (rest r2 : List Token) (l : Expr)
    (ht : t.typ = TokType.tatom ∨ t.typ = TokType.tconst ∨ t.typ = TokType.tnumber)
    (h : pLparList fuel rest = Except.ok (l, r2)) :
    pLparList (fuel + 1) (t :: rest) = Except.ok (Expr.cons (Expr.atom t) l, r2) := by
  rw [pLparList.eq_def]
  dsimp only
  rw [if_neg (by rcases ht with h | h | h <;> simp [h]), if_pos ht, h]

theorem pLparList_step_dot (fuel : Nat) (t : Token) (rest : List Token)
    (ht : t.typ = TokType.tdot) :
    pLparList (fuel + 1) (t :: rest) = pList fuel rest := by
  rw [pLparList.eq_def]
  dsimp only
  rw [if_neg (by simp [ht]), if_neg (by simp [ht]), if_pos ht]

theorem pLparList_step_lpar (fuel : Nat) (t : Token) (rest r r2 : List Token) (e1 l : Expr)
    (ht : t.typ = TokType.tlpar)
    (h1 : pList fuel (t :: rest) = Except.ok (e1, r))
    (h2 : pLparList fuel r = Except.ok (l, r2)) :
    pLparList (fuel + 1) (t :: rest) = Except.ok (Expr.cons e1 l, r2) := by
  rw [pLparList.eq_def]
  dsimp only
  rw [if_neg (by simp [ht]), if_neg (by simp [ht]), if_neg (by simp [ht]), if_pos ht, h1]
  dsimp only
  rw [h2]

theorem pLparList_step_rpar (fuel : Nat) (t : Token) (rest : List Token)
    (ht : t.typ = TokType.trpar) :
    pLparList (fuel + 1) (t :: rest) = Except.ok (Expr.empty, t :: rest) := by
  rw [pLparList.eq_def]
  dsimp only
  rw [if_neg (by simp [ht]), if_neg (by simp [ht]), if_neg (by simp [ht]),
    if_neg (by simp [ht]), if_pos ht]

/-- printToks never produces an empty token sequence. -/
theorem printToks_ne_nil (e : Expr) : printToks e ≠ [] := by
  cases e with
  | empty => simp [printToks]
  | atom t => simp [printToks]
  | cons a d =>
    cases d with
    | empty => rw [printToks_cons_empty]; split <;> simp
    | atom t => rw [printToks_cons_atom]; split <;> simp
    | cons x y => rw [printToks_cons_cons]; split <;> simp

/-- A good token is of atom, constant or number type, so the parser treats
it as an atom. -/
theorem goodTok_typ (t : Token) (h : goodTok t = true) :
    t.typ = TokType.tatom ∨ t.typ = TokType.tconst ∨ t.typ = TokType.tnumber := by
  simp only [goodTok] at h
  simp at h
  rcases h with ⟨h1, _⟩ | ⟨_, heq⟩
  · right; right; exact h1
  · rw [heq]; unfold mkStr; split
    · right; left; rfl
    · left; rfl

/-- parse_print_main: with enough fuel, the list parser consumes the
printed token sequence of a good expression and returns that expression,
and the lparList loop consumes a good printed tail up to the closing
parenthesis and returns the tail. -/
theorem parse_print_main : ∀ (n : Nat),
    (∀ e, goodE e = true → ∀ (rest : List Token) (fuel : Nat), fuel ≤ n →
        2 * (printToks e).length ≤ fuel →
        pList (fuel + 1) (printToks e ++ rest) = Except.ok (e, rest)) ∧
    (∀ d, goodTail d = true → ∀ (rest : List Token) (fuel : Nat), fuel ≤ n →
        2 * (tailToks d).length + 1 ≤ fuel →
        pLparList (fuel + 1) (tailToks d ++ (tokRparT :: rest)) =
          Except.ok (d, tokRparT :: rest)) := by
  intro n
  induction n with
  | zero =>
    constructor
    · intro e _ rest fuel hfn hfl
      exfalso
      have h1 : printToks e ≠ [] := printToks_ne_nil e
      have h2 : 0 < (printToks e).length := List.length_pos.mpr h1
      omega
    · intro d _ rest fuel hfn hfl
      omega
  | succ n ih =>
    constructor
    · intro e hg rest fuel hfn hfl
      cases e with
      | empty => simp [goodE] at hg
      | atom t =>
        have hpt : printToks (Expr.atom t) = [t] := rfl
        rw [hpt]
        exact pList_step_atom fuel t rest (goodTok_typ t (by simpa [goodE] using hg))
      | cons a d =>
        by_cases ha : a = Expr.atom tokQuoteA
        · cases d with
          | empty => rw [goodE_cons_empty, if_pos ha] at hg; exact absurd hg (by simp)
          | atom t2 => rw [goodE_cons_atom, if_pos ha] at hg; exact absurd hg (by simp)
          | cons x d2 =>
            cases d2 with
            | atom t3 => rw [goodE_cons_cons_atom, if_pos ha] at hg; exact absurd hg (by simp)
            | cons y z => rw [goodE_cons_cons_cons, if_pos ha] at hg; exact absurd hg (by simp)
            | empty =>
              rw [goodE_cons_cons_empty, if_pos ha] at hg
              rw [printToks_cons_cons, if_pos ha]
              rw [printToks_cons_cons, if_pos ha] at hfl
              simp only [List.length_cons] at hfl
              obtain ⟨f2, rfl⟩ : ∃ m, fuel = m + 1 + 1 := ⟨fuel - 2, by omega⟩
              have hform : (tokQuoteT :: printToks x) ++ rest =
                  tokQuoteT :: (printToks x ++ rest) := by simp
              rw [hform]
              rw [pList_step_quote (f2 + 1 + 1) tokQuoteT (printToks x ++ rest) rfl]
              rw [pQuote_step (f2 + 1) (printToks x ++ rest) rest x
                (ih.1 x hg rest f2 (by omega) (by omega))]
              rw [ha]
        · rw [goodE_cons_ne a d ha] at hg
          rw [printToks_cons_ne a d ha]
          rw [printToks_cons_ne a d ha] at hfl
          simp only [List.length_cons, List.length_append, List.length_cons] at hfl
          obtain ⟨f1, rfl⟩ : ∃ m, fuel = m + 1 := ⟨fuel - 1, by omega⟩
          have htl : tailToks (Expr.cons a d) = printToks a ++ tailToks d := rfl
          have hgt : goodTail (Expr.cons a d) = true := by
            rw [goodTail]; exact hg
          have hform : (tokLparT :: ((printToks a ++ tailToks d) ++ [tokRparT])) ++ rest =
              tokLparT :: (tailToks (Expr.cons a d) ++ (tokRparT :: rest)) := by
            rw [htl]; simp [List.append_assoc]
          rw [hform]
          have hL : pLparList (f1 + 1) (tailToks (Expr.cons a d) ++ (tokRparT :: rest)) =
              Except.ok (Expr.cons a d, tokRparT :: rest) := by
            apply ih.2 (Expr.cons a d) hgt rest f1 (by omega)
            rw [htl]
            simp only [List.length_append]
            omega
          exact pList_step_lpar (f1 + 1) tokLparT tokRparT
            (tailToks (Expr.cons a d) ++ (tokRparT :: rest)) rest (Expr.cons a d)
            rfl hL rfl
    · intro d hg rest fuel hfn hfl
      cases d with
      | empty =>
        have hte : tailToks Expr.empty = [] := rfl
        rw [hte, List.nil_append]
        exact pLparList_step_rpar fuel tokRparT rest rfl
      | atom t =>
        rw [goodTail] at hg
        simp at hg
        obtain ⟨hgt, hnil⟩ := hg
        have hta : tailToks (Expr.atom t) = [tokDotT, t] := by
          rw [tailToks, if_neg hnil]
        rw [hta] at hfl ⊢
        simp only [List.length_cons] at hfl
        obtain ⟨f1, rfl⟩ : ∃ m, fuel = m + 1 := ⟨fuel - 1, by omega⟩
        have hform : ([tokDotT, t] ++ (tokRparT :: rest) : List Token) =
            tokDotT :: (t :: (tokRparT :: rest)) := by simp
        rw [hform]
        rw [pLparList_step_dot (f1 + 1) tokDotT (t :: (tokRparT :: rest)) rfl]
        exact pList_step_atom f1 t (tokRparT :: rest) (goodTok_typ t hgt)
      | cons a d2 =>
        rw [goodTail] at hg
        simp at hg
        obtain ⟨hga, hgd⟩ := hg
        have htl : tailToks (Expr.cons a d2) = printToks a ++ tailToks d2 := rfl
        rw [htl] at hfl ⊢
        simp only [List.length_append] at hfl
        cases a with
        | empty => simp [goodE] at hga
        | atom t =>
          have hpt : printToks (Expr.atom t) = [t] := rfl
          rw [hpt] at hfl ⊢
          simp only [List.length_cons, List.length_nil] at hfl
          obtain ⟨f1, rfl⟩ : ∃ m, fuel = m + 1 := ⟨fuel - 1, by omega⟩
          have hform : ([t] ++ tailToks d2) ++ (tokRparT :: rest) =
              t :: (tailToks d2 ++ (tokRparT :: rest)) := by simp
          rw [hform]
          exact pLparList_step_atom (f1 + 1) t (tailToks d2 ++ (tokRparT :: rest))
            (tokRparT :: rest) d2 (goodTok_typ t (by simpa [goodE] using hga))
            (ih.2 d2 hgd rest f1 (by omega) (by omega))
        | cons h2 t2 =>
          by_cases hq : h2 = Expr.atom tokQuoteA
          · cases t2 with
            | empty => rw [goodE_cons_empty, if_pos hq] at hga; exact absurd hga (by simp)
            | atom t3 => rw [goodE_cons_atom, if_pos hq] at hga; exact absurd hga (by simp)
            | cons x d3 =>
              cases d3 with
              | atom t4 =>
                rw [goodE_cons_cons_atom, if_pos hq] at hga; exact absurd hga (by simp)
              | cons y z =>
                rw [goodE_cons_cons_cons, if_pos hq] at hga; exact absurd hga (by simp)
              | empty =>
                rw [goodE_cons_cons_empty, if_pos hq] at hga
                rw [printToks_cons_cons, if_pos hq] at hfl ⊢
                simp only [List.length_cons] at hfl
                obtain ⟨f2, rfl⟩ : ∃ m, fuel = m + 1 + 1 := ⟨fuel - 2, by omega⟩
                have hform : ((tokQuoteT :: printToks x) ++ tailToks d2) ++ (tokRparT :: rest) =
                    tokQuoteT :: (printToks x ++ (tailToks d2 ++ (tokRparT :: rest))) := by
                  simp [List.append_assoc]
                rw [hform]
                have h1 : pQuote (f2 + 1 + 1) (printToks x ++ (tailToks d2 ++ (tokRparT :: rest))) =
                    Except.ok (Expr.cons (Expr.atom tokQuoteA) (Expr.cons x Expr.empty),
                      tailToks d2 ++ (tokRparT :: rest)) :=
                  pQuote_step (f2 + 1) _ _ x
                    (ih.1 x hga (tailToks d2 ++ (tokRparT :: rest)) f2 (by omega) (by omega))
                have h2 : pLparList (f2 + 1 + 1) (tailToks d2 ++ (tokRparT :: rest)) =
                    Except.ok (d2, tokRparT :: rest) :=
                  ih.2 d2 hgd rest (f2 + 1) (by omega) (by omega)
                rw [pLparList_step_quote (f2 + 1 + 1) tokQuoteT _ _ _ _ d2 rfl h1 h2]
                rw [hq]
          · rw [printToks_cons_ne h2 t2 hq] at hfl ⊢
            simp only [List.length_cons, List.length_append] at hfl
            obtain ⟨f1, rfl⟩ : ∃ m, fuel = m + 1 := ⟨fuel - 1, by omega⟩
            have hform : ((tokLparT :: ((printToks h2 ++ tailToks t2) ++ [tokRparT])) ++
                tailToks d2) ++ (tokRparT :: rest) =
                tokLparT :: (((printToks h2 ++ tailToks t2) ++ [tokRparT]) ++
                  (tailToks d2 ++ (tokRparT :: rest))) := by
              simp [List.append_assoc]
            rw [hform]
            have hback : tokLparT :: (((printToks h2 ++ tailToks t2) ++ [tokRparT]) ++
                (tailToks d2 ++ (tokRparT :: rest))) =
                printToks (Expr.cons h2 t2) ++ (tailToks d2 ++ (tokRparT :: rest)) := by
              rw [printToks_cons_ne h2 t2 hq]
              simp [List.append_assoc]
            have h1 : pList (f1 + 1)
                (tokLparT :: (((printToks h2 ++ tailToks t2) ++ [tokRparT]) ++
                  (tailToks d2 ++ (tokRparT :: rest)))) =
                Except.ok (Expr.cons h2 t2, tailToks d2 ++ (tokRparT :: rest)) := by
              rw [hback]
              exact ih.1 (Expr.cons h2 t2) hga (tailToks d2 ++ (tokRparT :: rest)) f1
                (by omega) (by rw [printToks_cons_ne h2 t2 hq]; simp; omega)
            have h2 : pLparList (f1 + 1) (tailToks d2 ++ (tokRparT :: rest)) =
                Except.ok (d2, tokRparT :: rest) :=
              ih.2 d2 hgd rest f1 (by omega) (by omega)
            rw [pLparList_step_lpar (f1 + 1) tokLparT _ _ _ _ d2 rfl h1 h2]

/-- noRawChar is the premise of the round-trip property as the spec words
it: the expression contains no raw-character atoms. -/
def noRawChar : Expr → Bool
  | Expr.empty => true
  | Expr.atom t => ¬ (t.typ = TokType.tchar)
  | Expr.cons a d => noRawChar a && noRawChar d

/-- cexC4 is the list `(a . nil)` built with an explicit nil atom in the
tail, rather than the empty expression: it prints as `(a)`, which parses
back with an empty tail. -/
def cexC4 : Expr :=
  Expr.cons (Expr.atom (mkStr ("a"))) (Expr.atom tokNil)

/-- C4: list-mode printing does NOT round-trip on every expression free of
raw-character atoms: `(a . nil)` with an explicit nil atom in the tail has
no raw-character atoms, prints as `(a)`, and reparses to `(a . empty)`,
which is not deep-equal to it; printing also collapses every improper
quote-headed pair. -/
theorem C4_counterexample :
    noRawChar cexC4 = true ∧
    stringListE cexC4 = String.mk ['(', 'a', ')'] ∧
    parseListStr (stringListE cexC4) =
      Except.ok (Expr.cons (Expr.atom (mkStr ("a"))) Expr.empty) ∧
    ¬ (Expr.cons (Expr.atom (mkStr ("a"))) Expr.empty = cexC4) := by
  refine ⟨by decide, by decide, by decide, by decide⟩

/-- C4 (amended): list-mode printing round-trips on the expressions whose
atoms are good tokens, whose quote-headed pairs are proper two-element
quote forms, and whose cdr spines contain no empty expression and no
explicit nil atom: parsing the printed form with the list entry point
returns exactly the original expression. -/
theorem C4_round_trip_amended (e : Expr) (hg : goodE e = true) :
    parseListStr (stringListE e) = Except.ok e := by
  have hlex0 := (lex_print_main (esize e) e le_rfl).1 hg [] (by decide)
  rw [List.append_nil] at hlex0
  have hlexnil : lexAll ([] : List Char) = Except.ok [] := rfl
  rw [hlexnil] at hlex0
  have hmap : Except.map (fun ts => printToks e ++ ts)
      (Except.ok ([] : List Token) : Except String (List Token)) =
      Except.ok (printToks e) := by simp [Except.map]
  rw [hmap] at hlex0
  have hlex : lexAll (stringListE e).data = Except.ok (printToks e) := hlex0
  have hp : pList (2 * (printToks e).length + 4) (printToks e) = Except.ok (e, []) := by
    have h := (parse_print_main (2 * (printToks e).length + 3)).1 e hg []
      (2 * (printToks e).length + 3) le_rfl (by omega)
    rw [List.append_nil] at h
    exact h
  unfold parseListStr
  rw [hlex]
  dsimp only
  rw [hp]

/-- C4 (amended) witness: the good two-element list `(a 'b)` containing a
quote form round-trips through printing and parsing. -/
theorem C4_round_trip_amended_witness :
    goodE (Expr.cons (Expr.atom (mkStr ("a")))
      (Expr.cons (Expr.cons (Expr.atom tokQuoteA)
        (Expr.cons (Expr.atom (mkStr ("b"))) Expr.empty)) Expr.empty)) = true ∧
    parseListStr (stringListE (Expr.cons (Expr.atom (mkStr ("a")))
      (Expr.cons (Expr.cons (Expr.atom tokQuoteA)
        (Expr.cons (Expr.atom (mkStr ("b"))) Expr.empty)) Expr.empty))) =
      Except.ok (Expr.cons (Expr.atom (mkStr ("a")))
        (Expr.cons (Expr.cons (Expr.atom tokQuoteA)
          (Expr.cons (Expr.atom (mkStr ("b"))) Expr.empty)) Expr.empty)) :=
  ⟨by decide, C4_round_trip_amended (Expr.cons (Expr.atom (mkStr ("a")))
      (Expr.cons (Expr.cons (Expr.atom tokQuoteA)
        (Expr.cons (Expr.atom (mkStr ("b"))) Expr.empty)) Expr.empty)) (by decide)⟩

end Lisp15
